import Mathlib

/-!
# accel-ppp: connection rate limiter (`connlimit.c`) and log pipeline (`log.c`)

A shallow embedding of `accel-pppd/extra/connlimit.c` and `accel-pppd/log.c`.

Conventions of the embedding

* C `int` / `long` values are `Int`; `unsigned int` values are `Nat` below `2 ^ 32`,
  obtained with `to_uint` (reduction modulo `2 ^ 32`, the C conversion to `unsigned int`).
* `time_t` and `long` are 64 bit wide (LP64), so the elapsed-time expression of
  `connlimit_check` is evaluated without overflow before it is narrowed to `unsigned int`.
* The global intrusive list `items` is a `List item`, head of the C list first.
* The clock (`clock_gettime`, `_time`) and the configuration variables are explicit arguments.
* Signed arithmetic (`it->count++`, `t * 1000`) is modelled on `Int` without wrap-around:
  overflowing a C `int` is undefined behaviour; for the count it needs `2 ^ 31` checks of one
  identity with no idle gap as long as the burst-window timeout between them. Conversions
  between integer types are modelled
  (`to_uint`, `to_int`, `to_ulong`).
* Functions and constants that the two files take from libc or from other files of the
  repository are parameters (`externs`, `log_consts`) or, for `strtol`, a model of the C
  standard.
* The file holds the definitions of both modules first and their theorems after them.
-/

namespace Connlimit

/-! ## Data model -/

/-- The `struct timespec` of the monotonic clock. -/
structure timespec where
  tv_sec : Int
  tv_nsec : Int
deriving DecidableEq

/-- The `struct item` of connlimit.c without its list linkage: `key` is a `uint64_t`. -/
structure item where
  key : Nat
  ts : timespec
  count : Int
deriving DecidableEq

/-- The three configuration variables `conf_burst`, `conf_burst_timeout` (milliseconds) and
`conf_limit_timeout` (milliseconds), all C `int`. -/
structure conf where
  conf_burst : Int
  conf_burst_timeout : Int
  conf_limit_timeout : Int
deriving DecidableEq

/-- The defaults of connlimit.c lines 26-28. -/
def conf_default : conf :=
  { conf_burst := 3, conf_burst_timeout := 60 * 1000, conf_limit_timeout := 5000 }

/-- Conversion of a C integer to `unsigned int`: reduction modulo `2 ^ 32`. -/
def to_uint (x : Int) : Nat := (x % 4294967296).toNat

/-- The value of `(ts.tv_sec - it->ts.tv_sec) * 1000 + (ts.tv_nsec - it->ts.tv_nsec) / 1000000`
as a 64 bit `long`, before it is stored into `unsigned int d` (line 50). C division truncates
towards zero. -/
def elapsed_long (now ts : timespec) : Int :=
  (now.tv_sec - ts.tv_sec) * 1000 + Int.tdiv (now.tv_nsec - ts.tv_nsec) 1000000

/-- The `unsigned int d` of line 50. -/
def elapsed (now ts : timespec) : Nat := to_uint (elapsed_long now ts)

/-! ## `connlimit_check` -/

/-- The `list_for_each_safe` loop of `connlimit_check` (lines 47-77). The result is `r`, the
entry that `list_move` put at the head of `items` (if any), and the other entries that are
still in `items`, in list order. A comparison of `d` with an `int` configuration value converts
that value to `unsigned int`. -/
def scan (c : conf) (now : timespec) (key : Nat) : List item → Int × Option item × List item
  | [] => (1, none, [])
  | it :: rest =>
    let d := elapsed now it.ts
    if it.key = key then
      if d ≥ to_uint c.conf_burst_timeout then
        (0, some { it with ts := now, count := 0 }, rest)
      else
        let cnt := it.count + 1
        if cnt ≥ c.conf_burst then
          if d ≥ to_uint c.conf_limit_timeout then
            (0, some { it with ts := now, count := cnt }, rest)
          else
            (-1, none, { it with count := cnt } :: rest)
        else
          (0, none, { it with count := cnt } :: rest)
    else
      let res := scan c now key rest
      if d > to_uint c.conf_burst_timeout then
        res
      else
        (res.1, res.2.1, it :: res.2.2)

/-- The list `items` after the loop: the moved entry, if any, in front of the kept ones. -/
def relink (mv : Option item) (kept : List item) : List item :=
  match mv with
  | some it => it :: kept
  | none => kept

/-- The function `connlimit_check` (lines 33-108): the returned `r` and the new `items`.
The entries moved to `tmp_list` are freed and are not part of the result. -/
def connlimit_check (c : conf) (now : timespec) (key : Nat) (items : List item) :
    Int × List item :=
  let res := scan c now key items
  let items1 := relink res.2.1 res.2.2
  if res.1 = 1 then
    (0, { key := key, ts := now, count := 0 } :: items1)
  else
    (res.1, items1)

/-- An entry that the scan for another identity moves to `tmp_list` (line 73). -/
def stale (c : conf) (now : timespec) (it : item) : Bool :=
  decide (elapsed now it.ts > to_uint c.conf_burst_timeout)

/-- Successive calls of `connlimit_check` for one identity, one clock value per call: the
returned values in call order and the final list. -/
def check_seq (c : conf) (key : Nat) : List timespec → List item → List Int × List item
  | [], items => ([], items)
  | now :: nows, items =>
    let res := connlimit_check c now key items
    let tl := check_seq c key nows res.2
    (res.1 :: tl.1, tl.2)

/-- An integer within the range of a C `int`. -/
def is_int (x : Int) : Prop := -2147483648 ≤ x ∧ x ≤ 2147483647

instance (x : Int) : Decidable (is_int x) := by unfold is_int; infer_instance

/-! ## Flushing -/

/-- The function `connlimit_flush` (lines 158-168): unlink and free the head until the list is
empty. -/
def connlimit_flush : List item → List item
  | [] => []
  | _ :: rest => connlimit_flush rest

/-- The function `connlimit_flush_key` (lines 170-186): unlink the first entry whose key
matches, then stop. -/
def connlimit_flush_key (key : Nat) : List item → List item
  | [] => []
  | it :: rest => if it.key = key then rest else it :: connlimit_flush_key key rest

/-! ## The management commands -/

/-- Conversion of a C integer to `int`: reduction modulo `2 ^ 32` into the signed range. -/
def to_int (x : Int) : Int := (x + 2147483648) % 4294967296 - 2147483648

/-- Conversion of a C integer to `unsigned long`: reduction modulo `2 ^ 64`. -/
def to_ulong (x : Int) : Nat := (x % 18446744073709551616).toNat

/-- The functions and constants that connlimit.c takes from libc, utils.c, cli.h and
connlimit.h, none of which is part of connlimit.c: `sscanf` with the six-byte MAC format
(returned count and the bytes stored), `u_parse_ip4addr` (returned length and the parsed
`s_addr`), the two key derivations, `u_inet_ntoa` and the value of `CLI_CMD_OK`. -/
structure externs where
  sscanf_mac : String → Int × List Nat
  u_parse_ip4addr : String → Nat × Nat
  cl_key_from_mac : List Nat → Nat
  cl_key_from_ipv4 : Nat → Nat
  u_inet_ntoa : Nat → String
  CLI_CMD_OK : Int

/-- The rate limiter as seen by a management command: the list `items` and the strings sent to
the client with `cli_send` / `cli_sendv`, oldest first. -/
structure cli_state where
  items : List item
  sent : List String
deriving DecidableEq

/-- Append one response to the client's output. -/
def cli_send (st : cli_state) (line : String) : cli_state :=
  { st with sent := st.sent ++ [line] }

/-- One lowercase hexadecimal digit. -/
def hex_digit (n : Nat) : Char :=
  if n < 10 then Char.ofNat (48 + n) else Char.ofNat (87 + n)

/-- The conversion `%02x` of a byte. -/
def fmt_02x (b : Nat) : String :=
  String.mk [hex_digit (b / 16 % 16), hex_digit (b % 16)]

/-- The conversion `%-Ns`: left aligned in a field of width `w`. -/
def fmt_left (w : Nat) (str : String) : String :=
  str ++ String.mk (List.replicate (w - str.length) ' ')

/-- The conversion `%02i`. -/
def fmt_02i (i : Int) : String :=
  String.mk (List.replicate (2 - (toString i).length) '0') ++ toString i

/-- The function `fmt_age` (lines 110-126): the `HH:MM:SS` text and the raw text. The second
argument is the value of `_time()`. The raw text is printed from `uptime` after the statement
`uptime %= (60 * 60)` of line 118. -/
def fmt_age (ts : timespec) (time_now : Int) : String × String :=
  let uptime := time_now - ts.tv_sec
  let hour := to_int (Int.tdiv uptime (60 * 60))
  let uptime := Int.tmod uptime (60 * 60)
  let min := to_int (Int.tdiv uptime 60)
  let sec := to_int (Int.tmod uptime 60)
  let time_str := String.mk
    ((fmt_02i hour ++ ":" ++ fmt_02i min ++ ":" ++ fmt_02i sec).toList.take 23)
  (time_str, toString (to_ulong uptime))

/-- Byte `i` of the 64 bit key in memory (little endian), the `mac.mac[i]` of line 146. -/
def mac_byte (key : Nat) (i : Nat) : Nat := key / 256 ^ i % 256

/-- One row of `connlimit show` (lines 143-152). -/
def show_row (e : externs) (time_now : Int) (it : item) : String :=
  let buf :=
    if it.key > 4294967295 then
      " " ++ fmt_02x (mac_byte it.key 0) ++ ":" ++ fmt_02x (mac_byte it.key 1) ++ ":" ++
        fmt_02x (mac_byte it.key 2) ++ ":" ++ fmt_02x (mac_byte it.key 3) ++ ":" ++
        fmt_02x (mac_byte it.key 4) ++ ":" ++ fmt_02x (mac_byte it.key 5) ++ " | " ++
        fmt_left 12 " " ++ " "
    else
      " " ++ fmt_left 18 " " ++ "| " ++ fmt_left 13 (e.u_inet_ntoa it.key)
  let age := fmt_age it.ts time_now
  buf ++ " | " ++ fmt_left 5 (toString it.count) ++ " | " ++ fmt_left 8 age.1 ++ " | " ++
    age.2 ++ " \r\n"

/-- The function `connlimit_show` (lines 128-156). -/
def connlimit_show (e : externs) (time_now : Int) (st : cli_state) : cli_state :=
  let st1 := cli_send st "       mac         |       ip      | count |    age   | age-raw   \r\n"
  let st2 := cli_send st1 "-------------------+---------------+-------+----------+-----------\r\n"
  st.items.foldl (fun acc it => cli_send acc (show_row e time_now it)) st2

/-- The function `connlimit_flush_mac` (lines 188-196). -/
def connlimit_flush_mac (e : externs) (addr : String) (st : cli_state) : cli_state :=
  if (e.sscanf_mac addr).1 ≠ 6 then
    cli_send st "invalid format\r\n"
  else
    { st with items := connlimit_flush_key (e.cl_key_from_mac (e.sscanf_mac addr).2) st.items }

/-- The function `connlimit_flush_ip` (lines 198-207). -/
def connlimit_flush_ip (e : externs) (addr : String) (st : cli_state) : cli_state :=
  let len := (e.u_parse_ip4addr addr).1
  if len = 0 then
    cli_send st "invalid format\r\n"
  else
    { st with
      items := connlimit_flush_key (e.cl_key_from_ipv4 (e.u_parse_ip4addr addr).2) st.items }

/-- The function `cmd_help` (lines 209-216). -/
def cmd_help (st : cli_state) : cli_state :=
  let st := cli_send st "connlimit show - show connection limit entries\r\n"
  let st := cli_send st "connlimit flush - flush connection limit entries\r\n"
  let st := cli_send st "\tip <addresss> - flush by ip address\r\n"
  let st := cli_send st "\tmac <mac> - flush by station mac address\r\n"
  cli_send st "\tall - flush all entries\r\n"

/-- The function `cmd_exec` (lines 218-239): `fields` holds the `fields_cnt` words of the
command line, `fields[0]` being `connlimit`. -/
def cmd_exec (e : externs) (time_now : Int) (fields : List String) (fields_cnt : Int)
    (st : cli_state) : Int × cli_state :=
  if fields_cnt < 2 then
    (e.CLI_CMD_OK, cmd_help st)
  else if fields.getD 1 "" = "flush" then
    if fields_cnt = 3 ∧ fields.getD 2 "" = "all" then
      (e.CLI_CMD_OK, { st with items := connlimit_flush st.items })
    else if fields_cnt = 4 ∧ fields.getD 2 "" = "mac" then
      (e.CLI_CMD_OK, connlimit_flush_mac e (fields.getD 3 "") st)
    else if fields_cnt = 4 ∧ fields.getD 2 "" = "ip" then
      (e.CLI_CMD_OK, connlimit_flush_ip e (fields.getD 3 "") st)
    else
      (e.CLI_CMD_OK, cmd_help st)
  else if fields_cnt = 2 ∧ fields.getD 1 "" = "show" then
    (e.CLI_CMD_OK, connlimit_show e time_now st)
  else
    (e.CLI_CMD_OK, cmd_help st)

/-- The C `isspace` in the default locale. -/
def is_space (ch : Char) : Bool :=
  ch = ' ' || ch = '\t' || ch = '\n' || ch = '\x0b' || ch = '\x0c' || ch = '\r'

/-- The value of a sequence of decimal digits, most significant digit first. -/
def dec_val (ds : List Char) : Nat :=
  ds.foldl (fun acc ch => acc * 10 + (ch.toNat - 48)) 0

/-! ### A sample instance of the external functions

The scanners below stand in for `sscanf` and `u_parse_ip4addr` when a command is evaluated on
concrete text. The statements about `cmd_exec` hold for every instance of `externs`. -/

/-- The value of a hexadecimal digit. -/
def hex_val (ch : Char) : Option Nat :=
  if ch.isDigit then some (ch.toNat - 48)
  else if 'a' ≤ ch ∧ ch ≤ 'f' then some (ch.toNat - 87)
  else if 'A' ≤ ch ∧ ch ≤ 'F' then some (ch.toNat - 55)
  else none

/-- One `%hhx` conversion: white space, an optional sign, an optional `0x`, at least one
hexadecimal digit; the value is stored in an `unsigned char`. -/
def scan_hhx (inp : List Char) : Option (Nat × List Char) :=
  let s1 := inp.dropWhile is_space
  let neg := s1.head? = some '-'
  let s2 := if s1.head? = some '-' ∨ s1.head? = some '+' then s1.tail else s1
  let s3 :=
    match s2 with
    | '0' :: x :: h :: r => if (x = 'x' ∨ x = 'X') ∧ (hex_val h).isSome then h :: r else s2
    | _ => s2
  let ds := s3.takeWhile (fun ch => (hex_val ch).isSome)
  if ds = [] then
    none
  else
    let v := ds.foldl (fun acc ch => acc * 16 + (hex_val ch).getD 0) 0
    some ((if neg then 256 - v % 256 else v) % 256,
      s3.dropWhile (fun ch => (hex_val ch).isSome))

/-- The scan of `n` more bytes separated by colons: the number of conversions done and the
bytes stored. -/
def scan_mac_fields : Nat → List Char → Nat × List Nat
  | 0, _ => (0, [])
  | n + 1, inp =>
    match scan_hhx inp with
    | none => (0, [])
    | some (b, rest) =>
      if n = 0 then
        (1, [b])
      else
        match rest with
        | ':' :: rest2 =>
          ((scan_mac_fields n rest2).1 + 1, b :: (scan_mac_fields n rest2).2)
        | _ => (1, [b])

/-- The parse of `n` more decimal fields of a dotted quad, each of one to three digits and at
most 255. -/
def parse_quad : Nat → List Char → Option (List Nat)
  | 0, _ => none
  | n + 1, inp =>
    let ds := inp.takeWhile Char.isDigit
    let rest := inp.dropWhile Char.isDigit
    if ds = [] ∨ ds.length > 3 ∨ dec_val ds > 255 then
      none
    else if n = 0 then
      if rest = [] then some [dec_val ds] else none
    else
      match rest with
      | '.' :: rest2 => (parse_quad n rest2).map (fun tl => dec_val ds :: tl)
      | _ => none

/-- The sample instance: keys are the bytes read as a little-endian number, `CLI_CMD_OK` is 0. -/
def sample_externs : externs where
  sscanf_mac := fun addr =>
    (((scan_mac_fields 6 addr.toList).1 : Nat), (scan_mac_fields 6 addr.toList).2)
  u_parse_ip4addr := fun addr =>
    match parse_quad 4 addr.toList with
    | some bs => (addr.length, bs.foldr (fun b acc => b + 256 * acc) 0)
    | none => (0, 0)
  cl_key_from_mac := fun bs => bs.foldr (fun b acc => b + 256 * acc) 0
  cl_key_from_ipv4 := fun a => a
  u_inet_ntoa := fun a =>
    toString (a % 256) ++ "." ++ toString (a / 256 % 256) ++ "." ++
      toString (a / 65536 % 256) ++ "." ++ toString (a / 16777216 % 256)
  CLI_CMD_OK := 0

/-! ## Configuration -/

/-- The libc function `strtol(nptr, &endptr, 10)` on a C string given as its characters before
the terminating NUL: the returned `long` and the rest of the string at `endptr`. White space is
skipped, one sign is accepted, the digits are converted, and the value is clamped to the range
of `long`. Without a digit nothing is converted: the value is 0 and `endptr` is `nptr`. -/
def strtol (nptr : List Char) : Int × List Char :=
  let s1 := nptr.dropWhile is_space
  let neg := s1.head? = some '-'
  let s2 := if s1.head? = some '-' ∨ s1.head? = some '+' then s1.tail else s1
  let ds := s2.takeWhile Char.isDigit
  if ds = [] then
    (0, nptr)
  else
    let v : Int := if neg then -(dec_val ds : Int) else (dec_val ds : Int)
    (max (-9223372036854775808) (min v 9223372036854775807), s2.dropWhile Char.isDigit)

/-- The libc function `atoi`: `(int) strtol(nptr, NULL, 10)`. -/
def atoi (nptr : List Char) : Int := to_int (strtol nptr).1

/-- The function `parse_limit` (lines 241-277): `some (limit, time)` when it returns 0 and
`none` when it returns -1. The comparison `endptr == opt` holds exactly when `strtol` converted
nothing. -/
def parse_limit (opt : List Char) : Option (Int × Int) :=
  let limit := to_int (strtol opt).1
  match (strtol opt).2 with
  | [] => some (limit, 1)
  | ch :: opt2 =>
    if ch ≠ '/' then
      none
    else
      let time := if (strtol opt2).2 = opt2 then 1 else to_int (strtol opt2).1
      match (strtol opt2).2 with
      | 's' :: _ => some (limit, time)
      | 'm' :: _ => some (limit, time * 60)
      | 'h' :: _ => some (limit, time * 3600)
      | _ => none

/-- The options `burst` and `timeout` of `load_config` (lines 291-297). -/
def load_burst_timeout (conf_get_opt : String → String → Option (List Char)) (c : conf) :
    conf :=
  let c1 :=
    match conf_get_opt "connlimit" "burst" with
    | some opt => { c with conf_burst := atoi opt }
    | none => c
  match conf_get_opt "connlimit" "timeout" with
  | some opt => { c1 with conf_burst_timeout := atoi opt * 1000 }
  | none => c1

/-- The function `load_config` (lines 279-298) as a transformer of the configuration variables;
`conf_get_opt` is the external option lookup. When `parse_limit` fails the function returns at
once. The result is `none` when the division `t * 1000 / n` has a zero divisor, for which C
defines no result. -/
def load_config (conf_get_opt : String → String → Option (List Char)) (c : conf) :
    Option conf :=
  match conf_get_opt "connlimit" "limit" with
  | some opt =>
    match parse_limit opt with
    | none => some c
    | some (n, t) =>
      if n = 0 then
        none
      else
        some (load_burst_timeout conf_get_opt
          { c with conf_limit_timeout := Int.tdiv (t * 1000) n })
  | none => some (load_burst_timeout conf_get_opt c)

/-! ## Invariants of the entry list -/

/-- At most one entry per identity. -/
def unique_keys (items : List item) : Prop := (items.map (fun it => it.key)).Nodup

instance (items : List item) : Decidable (unique_keys items) := by
  unfold unique_keys; infer_instance

/-- One operation on the entry list; a check carries the configuration and the clock value
that it sees. -/
inductive op where
  | check (c : conf) (now : timespec) (key : Nat)
  | flush
  | flush_key (key : Nat)

/-- The entry list after one operation. -/
def step (items : List item) : op → List item
  | op.check c now key => (connlimit_check c now key items).2
  | op.flush => connlimit_flush items
  | op.flush_key key => connlimit_flush_key key items

/-- The entry list after a sequence of operations, starting from the empty list `LIST_HEAD`. -/
def run_ops (ops : List op) : List item := ops.foldl step []

/-- The order of two points in time given as normalised timespecs: `a` is not later than `b`. -/
def ts_le (a b : timespec) : Prop :=
  a.tv_sec < b.tv_sec ∨ (a.tv_sec = b.tv_sec ∧ a.tv_nsec ≤ b.tv_nsec)

instance (a b : timespec) : Decidable (ts_le a b) := by unfold ts_le; infer_instance

instance : IsTrans timespec (fun a b => ts_le b a) :=
  ⟨fun a b d h1 h2 => by unfold ts_le at *; omega⟩

/-- The timestamps do not increase from the front of the list to its tail: each entry is not
later than the entry in front of it. -/
def recent_first (items : List item) : Prop :=
  (items.map (fun it => it.ts)).Chain' (fun a b => ts_le b a)

end Connlimit

namespace Log

/-! ## The log pipeline of log.c

One worker thread is modelled: its thread-local `cur_msg` and `stat_buf`, the pool-allocated
message bodies (a pointer to a body is its index in `msgs`), the registered targets and a record
of every call of a target's `log` function. The outcome of each `mempool_alloc` is taken from
the list `allocs`; when the list is used up, allocation succeeds. A text is a C string given as
its characters before the terminating NUL. -/

/-- The constants `LOG_MAX_SIZE` and `LOG_CHUNK_SIZE` of log.h, a header that log.c includes. -/
structure log_consts where
  LOG_MAX_SIZE : Nat
  LOG_CHUNK_SIZE : Nat
deriving DecidableEq

/-- The `struct timeval` of a message timestamp. -/
structure timeval where
  tv_sec : Int
  tv_usec : Int
deriving DecidableEq

/-- The fields of `struct ppp_t` that log.c reads. -/
structure ppp_t where
  ifname : List Char
  sessionid : List Char
deriving DecidableEq

/-- The `struct _log_msg_t` (lines 28-35): `chunks` holds the text of each chunk in list order
(`chunk->len` is the length of the text). The field `frees` is bookkeeping: the number of times
the chunks and the body were given back to their pools. -/
structure _log_msg_t where
  level : Int
  timestamp : timeval
  chunks : List (List Char)
  refs : Nat
  frees : Nat
deriving DecidableEq

/-- The `struct log_msg_t` that `clone_msg` fills (lines 285-289): `lpd` points to the shared
body, whose chunk list `m->chunks` refers to; `hdr_len` is `m->hdr->len`. -/
structure log_msg_t where
  lpd : Nat
  timestamp : timeval
  level : Int
  hdr_len : Int
deriving DecidableEq

/-- One call `t->log(t, m, ppp)` (line 98): the target, the clone, the chunk list that
`m->chunks` refers to at the time of the call, and the `ppp` argument. -/
structure sink_call where
  target : Nat
  m : log_msg_t
  chunks : List (List Char)
  ppp : Option ppp_t
deriving DecidableEq

/-- The state of the log module as seen by one thread. `debug_file` and `emerg_file` are `none`
when the `FILE *` is NULL and otherwise hold what was written. -/
structure log_state where
  targets : List Nat
  msgs : List _log_msg_t
  cur_msg : Option Nat
  stat_buf : List Char
  allocs : List Bool
  calls : List sink_call
  debug_file : Option (List (List Char))
  emerg_file : Option (List (List Char))
deriving DecidableEq

/-- The content read through a pointer that is not a live body. -/
def msg_null : _log_msg_t :=
  { level := 0, timestamp := ⟨0, 0⟩, chunks := [], refs := 0, frees := 0 }

/-- Read the body at pointer `msg`. -/
def get_msg (st : log_state) (msg : Nat) : _log_msg_t := st.msgs.getD msg msg_null

/-- Write the body at pointer `msg`. -/
def set_msg (st : log_state) (msg : Nat) (body : _log_msg_t) : log_state :=
  { st with msgs := st.msgs.set msg body }

/-- The pool function `mempool_alloc`: whether it returned memory, and the state after it. -/
def mempool_alloc (st : log_state) : Bool × log_state :=
  match st.allocs with
  | [] => (true, st)
  | b :: rest => (b, { st with allocs := rest })

/-- The function `log_emerg` (lines 230-239) on an already formatted text. -/
def log_emerg (text : List Char) (st : log_state) : log_state :=
  match st.emerg_file with
  | some w => { st with emerg_file := some (w ++ [text]) }
  | none => st

/-- The function `log_register_target` (lines 444-447): `list_add_tail`. -/
def log_register_target (t : Nat) (st : log_state) : log_state :=
  { st with targets := st.targets ++ [t] }

/-- The function `_log_free_msg` (lines 254-268): `refs` is an `unsigned int`, so decrementing
zero wraps to `2 ^ 32 - 1`; at zero every chunk is unlinked and freed and the body is freed. -/
def _log_free_msg (msg : Nat) (st : log_state) : log_state :=
  let body := get_msg st msg
  let refs := if body.refs = 0 then 4294967295 else body.refs - 1
  if refs ≠ 0 then
    set_msg st msg { body with refs := refs }
  else
    set_msg st msg { body with refs := refs, chunks := [], frees := body.frees + 1 }

/-- The function `log_free_msg` (lines 241-251): the header and the clone go back to their
pools, which the state does not track, and the reference to the body is released. -/
def log_free_msg (m : log_msg_t) (st : log_state) : log_state :=
  _log_free_msg m.lpd st

/-- The function `clone_msg` (lines 270-295): `none` is the NULL result. -/
def clone_msg (msg : Nat) (st : log_state) : Option log_msg_t × log_state :=
  let a1 := mempool_alloc st
  if a1.1 = false then
    (none, log_emerg "log: out of memory\n".toList a1.2)
  else
    let a2 := mempool_alloc a1.2
    if a2.1 = false then
      (none, log_emerg "log: out of memory\n".toList a2.2)
    else
      let body := get_msg a2.2 msg
      (some { hdr_len := 0, lpd := msg, timestamp := body.timestamp, level := body.level },
        set_msg a2.2 msg { body with refs := (body.refs + 1) % 4294967296 })

/-- The loop of `add_msg` (lines 305-315) with `n` iterations left, at index `i`. -/
def add_chunks (K : log_consts) (msg : Nat) (buf : List Char) (len chunk_cnt : Int) :
    Nat → Int → log_state → Int × log_state
  | 0, _, st => (0, st)
  | n + 1, i, st =>
    let a := mempool_alloc st
    if a.1 = false then
      (-1, a.2)
    else
      let clen : Int :=
        if i = chunk_cnt - 1 then len - i * K.LOG_CHUNK_SIZE else K.LOG_CHUNK_SIZE
      let chunk := (buf.drop (i * K.LOG_CHUNK_SIZE).toNat).take clen.toNat
      let body := get_msg a.2 msg
      add_chunks K msg buf len chunk_cnt n (i + 1)
        (set_msg a.2 msg { body with chunks := body.chunks ++ [chunk] })

/-- The function `add_msg` (lines 297-318): the returned value and the state. The loop runs
`chunk_cnt` times unless an allocation fails. -/
def add_msg (K : log_consts) (msg : Nat) (buf : List Char) (st : log_state) :
    Int × log_state :=
  let len : Int := buf.length
  let chunk_cnt : Int := Int.tdiv (len - 1) K.LOG_CHUNK_SIZE + 1
  add_chunks K msg buf len chunk_cnt chunk_cnt.toNat 0 st

/-- The function `write_msg` (lines 320-334) for an open file: the text is built in `stat_buf`
and written. -/
def write_msg (msg : Nat) (ppp : Option ppp_t) (st : log_state) : log_state :=
  let head : List Char :=
    match ppp with
    | some p => p.ifname ++ ": ".toList ++ p.sessionid ++ ": ".toList
    | none => []
  let text := head ++ (get_msg st msg).chunks.flatten
  { st with stat_buf := text, debug_file := st.debug_file.map (fun w => w ++ [text]) }

/-- The loop over `targets` of `do_log` (lines 94-99): one clone per target, handed to the
target's `log` function; the loop ends at the first clone that cannot be allocated. -/
def fan_out (msg : Nat) (ppp : Option ppp_t) : List Nat → log_state → log_state
  | [], st => st
  | t :: ts, st =>
    match clone_msg msg st with
    | (none, st1) => st1
    | (some m, st1) =>
      fan_out msg ppp ts
        { st1 with calls := st1.calls ++
            [{ target := t, m := m, chunks := (get_msg st1 msg).chunks, ppp := ppp }] }

/-- Lines 75-83 of `do_log`: the pending message of the thread, allocated and initialised when
there is none. -/
def pending_msg (level : Int) (tv : timeval) (st : log_state) : Option Nat × log_state :=
  match st.cur_msg with
  | some msg => (some msg, st)
  | none =>
    let a := mempool_alloc st
    if a.1 = false then
      (none, a.2)
    else
      (some a.2.msgs.length,
        { a.2 with
          msgs := a.2.msgs ++
            [{ level := level, timestamp := tv, chunks := [], refs := 1, frees := 0 }],
          cur_msg := some a.2.msgs.length })

/-- The index `strlen(stat_buf) - 1` of line 88, computed in `size_t` (64 bit): for the empty
text the subtraction wraps to `2 ^ 64 - 1`. -/
def eol_index (buf : List Char) : Nat :=
  if buf.length = 0 then 18446744073709551615 else buf.length - 1

/-- The function `do_log` (lines 63-104). `text` is what the format and its arguments expand
to, `tv` is the value of `gettimeofday`. `vsnprintf` stores at most `LOG_MAX_SIZE - 1`
characters. The result is `none` when line 88 reads outside the text in `stat_buf`. -/
def do_log (K : log_consts) (level : Int) (text : List Char) (ppp : Option ppp_t)
    (tv : timeval) (st : log_state) : Option log_state :=
  let st0 := { st with stat_buf := text.take (K.LOG_MAX_SIZE - 1) }
  match pending_msg level tv st0 with
  | (none, st1) => some st1
  | (some msg, st1) =>
    let r := add_msg K msg st1.stat_buf st1
    if r.1 ≠ 0 then
      some { _log_free_msg msg r.2 with cur_msg := none }
    else
      match r.2.stat_buf.get? (eol_index r.2.stat_buf) with
      | none => none
      | some ch =>
        if ch ≠ '\n' then
          some r.2
        else
          let st2 := if r.2.debug_file.isSome then write_msg msg ppp r.2 else r.2
          let st3 := fan_out msg ppp st2.targets st2
          some { _log_free_msg msg st3 with cur_msg := none }

/-- The chunks that the loop of `add_msg` appends when every allocation succeeds. -/
def chunk_list (K : log_consts) (buf : List Char) (len chunk_cnt : Int) :
    Nat → Int → List (List Char)
  | 0, _ => []
  | n + 1, i =>
    (buf.drop (i * K.LOG_CHUNK_SIZE).toNat).take
        (if i = chunk_cnt - 1 then len - i * K.LOG_CHUNK_SIZE else K.LOG_CHUNK_SIZE).toNat ::
      chunk_list K buf len chunk_cnt n (i + 1)

/-- The chunks of a whole text: `chunk_list` with the counts of `add_msg`. -/
def text_chunks (K : log_consts) (buf : List Char) : List (List Char) :=
  chunk_list K buf buf.length (Int.tdiv ((buf.length : Int) - 1) K.LOG_CHUNK_SIZE + 1)
    (Int.tdiv ((buf.length : Int) - 1) K.LOG_CHUNK_SIZE + 1).toNat 0

/-- One release of a reference to a message body: the one of `do_log` itself (line 102) or the
`log_free_msg` of a clone by the target that received it. -/
inductive release where
  | own (msg : Nat)
  | clone (m : log_msg_t)
deriving DecidableEq

/-- Perform one release. -/
def do_release (st : log_state) : release → log_state
  | release.own msg => _log_free_msg msg st
  | release.clone m => log_free_msg m st

/-- No pending allocation outcome is a failure. -/
def allocs_ok (st : log_state) : Prop := ∀ b ∈ st.allocs, b = true

instance (st : log_state) : Decidable (allocs_ok st) := by unfold allocs_ok; infer_instance

/-- The constants are usable: the chunk size is positive and a line length fits an `int`. -/
def consts_ok (K : log_consts) : Prop :=
  0 < K.LOG_CHUNK_SIZE ∧ K.LOG_MAX_SIZE < 2147483648

instance (K : log_consts) : Decidable (consts_ok K) := by unfold consts_ok; infer_instance

/-- The state after the `add_msg` of a call of `do_log` in which every allocation succeeds. -/
def after_add (K : log_consts) (msg : Nat) (text : List Char) (st : log_state) : log_state :=
  { st with
    stat_buf := text,
    msgs := st.msgs.set msg
      { get_msg st msg with chunks := (get_msg st msg).chunks ++ text_chunks K text },
    allocs := st.allocs.drop (Int.tdiv ((text.length : Int) - 1) K.LOG_CHUNK_SIZE + 1).toNat }

/-- An empty log state with the given targets. -/
def log_init (targets : List Nat) : log_state :=
  { targets := targets, msgs := [], cur_msg := none, stat_buf := [], allocs := [],
    calls := [], debug_file := none, emerg_file := none }

/-- The next `n` allocations succeed. -/
def next_allocs_ok (n : Nat) (st : log_state) : Prop :=
  ∀ i, i < n → st.allocs.getD i true = true

/-- The allocation number `n` from now (counted from 0) fails. -/
def alloc_fails_at (n : Nat) (st : log_state) : Prop :=
  st.allocs.getD n true = false

/-- The text that `vsnprintf(stat_buf, LOG_MAX_SIZE, ...)` stores (line 73). -/
def stored_text (K : log_consts) (text : List Char) : List Char :=
  text.take (K.LOG_MAX_SIZE - 1)

/-- The number of allocations that `do_log` makes before the first clone when none fails: the
body, when there is no pending message, and one per chunk of the stored text. -/
def allocs_before_clones (K : log_consts) (text : List Char) (st : log_state) : Nat :=
  (if st.cur_msg = none then 1 else 0) +
    (Int.tdiv (((stored_text K text).length : Int) - 1) K.LOG_CHUNK_SIZE + 1).toNat

/-- The pending slot is well formed: it is empty or points to a live body whose reference
count is in the range of `unsigned int`. -/
def pending_ok (st : log_state) : Prop :=
  ∀ msg, st.cur_msg = some msg → msg < st.msgs.length ∧ (get_msg st msg).refs < 4294967296

/-- The body that the text of a call of `do_log` is appended to: the pending one, or a fresh
one with the level and time of the call. -/
def pending_body (level : Int) (tv : timeval) (st : log_state) : _log_msg_t :=
  match st.cur_msg with
  | some msg => get_msg st msg
  | none => { level := level, timestamp := tv, chunks := [], refs := 1, frees := 0 }

/-- The pointer to the body that the text of a call of `do_log` is appended to. -/
def pending_ptr (st : log_state) : Nat :=
  match st.cur_msg with
  | some msg => msg
  | none => st.msgs.length

instance (n : Nat) (st : log_state) : Decidable (next_allocs_ok n st) := by
  unfold next_allocs_ok; infer_instance

instance (n : Nat) (st : log_state) : Decidable (alloc_fails_at n st) := by
  unfold alloc_fails_at; infer_instance

end Log

namespace Connlimit

/-! ## Lemmas on the scan loop -/

theorem scan_no_match (c : conf) (now : timespec) (k : Nat) (items : List item)
    (h : ∀ it ∈ items, it.key ≠ k) :
    scan c now k items = (1, none, items.filter (fun it => !stale c now it)) := by
  induction items with
  | nil => rfl
  | cons it rest ih =>
    have hk : it.key ≠ k := h it (List.mem_cons_self _ _)
    have hr : ∀ x ∈ rest, x.key ≠ k := fun x hx => h x (List.mem_cons_of_mem _ hx)
    simp only [scan, hk, if_false, ih hr]
    by_cases hd : elapsed now it.ts > to_uint c.conf_burst_timeout
    · simp [stale, hd]
    · simp [stale, hd]

/-- The scan passes over a prefix without a match, evicting its stale entries. -/
theorem scan_append (c : conf) (now : timespec) (k : Nat) (pre l : List item)
    (h : ∀ x ∈ pre, x.key ≠ k) :
    scan c now k (pre ++ l) =
      ((scan c now k l).1, (scan c now k l).2.1,
        pre.filter (fun x => !stale c now x) ++ (scan c now k l).2.2) := by
  induction pre with
  | nil => simp
  | cons x rest ih =>
    have hk : x.key ≠ k := h x (List.mem_cons_self _ _)
    have hr : ∀ y ∈ rest, y.key ≠ k := fun y hy => h y (List.mem_cons_of_mem _ hy)
    have e : scan c now k (x :: rest ++ l) =
        if elapsed now x.ts > to_uint c.conf_burst_timeout then scan c now k (rest ++ l)
        else ((scan c now k (rest ++ l)).1, (scan c now k (rest ++ l)).2.1,
          x :: (scan c now k (rest ++ l)).2.2) := by
      simp only [List.cons_append, scan, hk, if_false]
      rfl
    rw [e, ih hr]
    by_cases hd : elapsed now x.ts > to_uint c.conf_burst_timeout
    · simp [stale, hd]
    · simp [stale, hd]

/-- Every list either has no entry for `k` or splits at its first entry for `k`. -/
theorem first_match_split (k : Nat) (items : List item) :
    (∀ x ∈ items, x.key ≠ k) ∨
    ∃ pre it post, items = pre ++ it :: post ∧ (∀ x ∈ pre, x.key ≠ k) ∧ it.key = k := by
  induction items with
  | nil => left; simp
  | cons x rest ih =>
    by_cases hx : x.key = k
    · right
      exact ⟨[], x, rest, rfl, by simp, hx⟩
    · rcases ih with h | ⟨pre, it, post, he, hp, hk⟩
      · left
        intro y hy
        rcases List.mem_cons.mp hy with rfl | hy
        · exact hx
        · exact h y hy
      · right
        refine ⟨x :: pre, it, post, by simp [he], ?_, hk⟩
        intro y hy
        rcases List.mem_cons.mp hy with rfl | hy
        · exact hx
        · exact hp y hy

theorem to_uint_of_range (x : Int) (h0 : 0 ≤ x) (h1 : x < 4294967296) :
    (to_uint x : Int) = x := by
  unfold to_uint
  rw [Int.emod_eq_of_lt h0 h1]
  exact Int.toNat_of_nonneg h0

theorem to_uint_lt (x : Int) : to_uint x < 4294967296 := by
  unfold to_uint
  have h : x % 4294967296 < 4294967296 := Int.emod_lt_of_pos x (by norm_num)
  have h0 : 0 ≤ x % 4294967296 := Int.emod_nonneg x (by norm_num)
  omega

theorem elapsed_self (now : timespec) : elapsed now now = 0 := by
  simp [elapsed, elapsed_long, to_uint]

/-! ## Claims -/

/-- C1: for a list with no entry of identity `k`, `connlimit_check` returns 0 (Accept); the new
list starts with a fresh entry for `k` (count 0, timestamp `now`), followed by the old entries
that were not evicted, so it holds exactly one entry for `k`. -/
theorem connlimit_check_first_seen (c : conf) (now : timespec) (k : Nat) (items : List item)
    (h : ∀ it ∈ items, it.key ≠ k) :
    (connlimit_check c now k items).1 = 0 ∧
    (connlimit_check c now k items).2 =
      { key := k, ts := now, count := 0 } :: items.filter (fun it => !stale c now it) ∧
    ((connlimit_check c now k items).2.filter (fun it => it.key = k)).length = 1 := by
  have hs := scan_no_match c now k items h
  have hf : (items.filter (fun it => !stale c now it)).filter (fun it => it.key = k) = [] := by
    rw [List.filter_eq_nil_iff]
    intro x hx
    have := h x (List.mem_of_mem_filter hx)
    simpa using this
  refine ⟨?_, ?_, ?_⟩
  · simp [connlimit_check, hs]
  · simp [connlimit_check, hs, relink]
  · simp [connlimit_check, hs, relink, List.filter_cons, hf]

/-- Witness of C1: two old entries of other identities, one of them stale. -/
theorem connlimit_check_first_seen_witness :
    (connlimit_check conf_default ⟨101, 0⟩ 5
      [{ key := 7, ts := ⟨0, 0⟩, count := 2 }, { key := 9, ts := ⟨100, 0⟩, count := 0 }]).1 = 0 ∧
    (connlimit_check conf_default ⟨101, 0⟩ 5
      [{ key := 7, ts := ⟨0, 0⟩, count := 2 }, { key := 9, ts := ⟨100, 0⟩, count := 0 }]).2 =
      [{ key := 5, ts := ⟨101, 0⟩, count := 0 }, { key := 9, ts := ⟨100, 0⟩, count := 0 }] := by
  have hne : ∀ it ∈ [({ key := 7, ts := ⟨0, 0⟩, count := 2 } : item),
      { key := 9, ts := ⟨100, 0⟩, count := 0 }], it.key ≠ 5 := by decide
  have h := connlimit_check_first_seen conf_default ⟨101, 0⟩ 5 _ hne
  exact ⟨h.1, by rw [h.2.1]; decide⟩

/-- The state of the entry for `k` at the head of the list while no time elapses: after the
first call its count is the number of later calls. -/
theorem check_seq_head (c : conf) (k : Nat) (t0 : timespec) (nows : List timespec)
    (hbt : 0 < c.conf_burst_timeout) (hbt2 : is_int c.conf_burst_timeout)
    (hlt : 0 < c.conf_limit_timeout) (hlt2 : is_int c.conf_limit_timeout)
    (hd : ∀ t ∈ nows, (elapsed t t0 : Int) < c.conf_burst_timeout ∧
      (elapsed t t0 : Int) < c.conf_limit_timeout) (j : Nat) (rest : List item) :
    (check_seq c k nows ({ key := k, ts := t0, count := j } :: rest)).1 =
      (List.range nows.length).map
        (fun (i : Nat) => if ((j + 1 + i : Nat) : Int) < c.conf_burst then (0 : Int) else -1) := by
  induction nows generalizing j with
  | nil => simp [check_seq]
  | cons t ts ih =>
    have ht := hd t (List.mem_cons_self _ _)
    have hts : ∀ u ∈ ts, (elapsed u t0 : Int) < c.conf_burst_timeout ∧
        (elapsed u t0 : Int) < c.conf_limit_timeout :=
      fun u hu => hd u (List.mem_cons_of_mem _ hu)
    have e1 := to_uint_of_range c.conf_burst_timeout (le_of_lt hbt) (by unfold is_int at hbt2; omega)
    have e2 := to_uint_of_range c.conf_limit_timeout (le_of_lt hlt) (by unfold is_int at hlt2; omega)
    have n1 : ¬ (elapsed t t0 ≥ to_uint c.conf_burst_timeout) := by omega
    have n2 : ¬ (elapsed t t0 ≥ to_uint c.conf_limit_timeout) := by omega
    rw [List.length_cons, List.range_succ_eq_map, List.map_cons, List.map_map]
    by_cases hb : ((j : Int) + 1) ≥ c.conf_burst
    · have hstep : connlimit_check c t k ({ key := k, ts := t0, count := j } :: rest) =
          (-1, { key := k, ts := t0, count := ((j + 1 : Nat) : Int) } :: rest) := by
        simp [connlimit_check, scan, relink, n1, n2, hb]
      have hlt0 : ¬ (((j + 1 + 0 : Nat) : Int) < c.conf_burst) := by push_cast; omega
      simp only [check_seq, hstep, ih hts (j + 1), hlt0, if_false]
      congr 1
      apply List.map_congr_left
      intro i _
      simp only [Function.comp]
      have : j + 1 + 1 + i = j + 1 + (i + 1) := by omega
      rw [this]
    · have hstep : connlimit_check c t k ({ key := k, ts := t0, count := j } :: rest) =
          (0, { key := k, ts := t0, count := ((j + 1 : Nat) : Int) } :: rest) := by
        simp [connlimit_check, scan, relink, n1, hb]
      have hlt0 : ((j + 1 + 0 : Nat) : Int) < c.conf_burst := by push_cast; omega
      simp only [check_seq, hstep, ih hts (j + 1), hlt0, if_true]
      congr 1
      apply List.map_congr_left
      intro i _
      simp only [Function.comp]
      have : j + 1 + 1 + i = j + 1 + (i + 1) := by omega
      rw [this]

/-- C2: with burst at least 1 and positive timeouts, starting from a list without an entry for
`k`, calls of `connlimit_check k` that all see an elapsed time below the sustained interval and
below the burst-window timeout return Accept (0) for exactly the first `conf_burst` calls and
Drop (-1) for every later call. -/
theorem burst_then_drop (c : conf) (k : Nat) (items : List item) (t0 : timespec)
    (nows : List timespec)
    (hb : 1 ≤ c.conf_burst)
    (hbt : 0 < c.conf_burst_timeout) (hbt2 : is_int c.conf_burst_timeout)
    (hlt : 0 < c.conf_limit_timeout) (hlt2 : is_int c.conf_limit_timeout)
    (hk : ∀ it ∈ items, it.key ≠ k)
    (hd : ∀ t ∈ nows, (elapsed t t0 : Int) < c.conf_burst_timeout ∧
      (elapsed t t0 : Int) < c.conf_limit_timeout) :
    (check_seq c k (t0 :: nows) items).1 =
      (List.range (nows.length + 1)).map
        (fun (i : Nat) => if (i : Int) < c.conf_burst then (0 : Int) else -1) := by
  obtain ⟨h1, h2, _⟩ := connlimit_check_first_seen c t0 k items hk
  have hh := check_seq_head c k t0 nows hbt hbt2 hlt hlt2 hd 0
    (items.filter (fun it => !stale c t0 it))
  have h0 : ((0 : Nat) : Int) < c.conf_burst := by push_cast; omega
  rw [List.range_succ_eq_map, List.map_cons, List.map_map]
  simp only [check_seq, h1, h2, h0, if_true]
  congr 1
  simp only [Nat.cast_zero] at hh
  rw [hh]
  apply List.map_congr_left
  intro i _
  simp only [Function.comp]
  have : 0 + 1 + i = i + 1 := by omega
  rw [this]

/-- Witness of C2, the scenario of the specification: burst 3, timeout 60 s, sustained interval
100 ms, five calls for 10.0.0.1 within 10 ms give Accept, Accept, Accept, Drop, Drop. -/
theorem burst_then_drop_witness :
    (check_seq ⟨3, 60000, 100⟩ 167772161
      [⟨5, 0⟩, ⟨5, 2000000⟩, ⟨5, 4000000⟩, ⟨5, 6000000⟩, ⟨5, 8000000⟩] []).1 =
      [0, 0, 0, -1, -1] := by
  have h := burst_then_drop ⟨3, 60000, 100⟩ 167772161 [] ⟨5, 0⟩
    [⟨5, 2000000⟩, ⟨5, 4000000⟩, ⟨5, 6000000⟩, ⟨5, 8000000⟩]
    (by decide) (by decide) (by decide) (by decide) (by decide) (by simp) (by decide)
  rw [h]
  decide

/-- The reset branch below the wrap-around of `d`: an entry for `k` whose elapsed time exceeds
the burst-window timeout and is below `2 ^ 32` ms is reset and moved to the front. -/
theorem check_reset_below_wrap (c : conf) (now : timespec) (k : Nat)
    (pre : List item) (it : item) (post : List item)
    (hp : ∀ x ∈ pre, x.key ≠ k) (hk : it.key = k)
    (hbt : 0 ≤ c.conf_burst_timeout) (hbt2 : is_int c.conf_burst_timeout)
    (hd : c.conf_burst_timeout < elapsed_long now it.ts)
    (hw : elapsed_long now it.ts < 4294967296) :
    connlimit_check c now k (pre ++ it :: post) =
      (0, { it with ts := now, count := 0 } ::
        (pre.filter (fun x => !stale c now x) ++ post)) := by
  have e1 := to_uint_of_range c.conf_burst_timeout hbt (by unfold is_int at hbt2; omega)
  have e2 := to_uint_of_range (elapsed_long now it.ts) (by omega) hw
  have n1 : elapsed now it.ts ≥ to_uint c.conf_burst_timeout := by
    unfold elapsed; omega
  simp [connlimit_check, scan_append c now k pre (it :: post) hp, scan, hk, n1, relink]

/-- C3, the code at a failing input: with the default configuration an entry of identity 1 that
was last touched 4294967296 ms (`2 ^ 32` ms, about 49.7 days) ago, far beyond the burst-window
timeout of 60000 ms, is not reset: `d` wraps to 0, the call returns Drop (-1), the count goes
from 3 to 4 and the timestamp stays. -/
theorem check_wraps_after_49_days :
    elapsed_long ⟨4294967, 296000000⟩ ⟨0, 0⟩ = 4294967296 ∧
    conf_default.conf_burst_timeout < elapsed_long ⟨4294967, 296000000⟩ ⟨0, 0⟩ ∧
    connlimit_check conf_default ⟨4294967, 296000000⟩ 1
      [{ key := 1, ts := ⟨0, 0⟩, count := 3 }] =
      (-1, [{ key := 1, ts := ⟨0, 0⟩, count := 4 }]) := by
  refine ⟨by decide, by decide, by decide⟩

/-- C4: an entry for `k` in the drop state (count at least `conf_burst`) that is checked when
the elapsed value `d` satisfies `conf_limit_timeout ≤ d < conf_burst_timeout` (with
`conf_limit_timeout` positive) is accepted, gets the current time as timestamp and moves to the
front; a second check at the same clock value returns Drop (-1). -/
theorem sustained_accept_then_drop (c : conf) (now : timespec) (k : Nat)
    (pre : List item) (it : item) (post : List item)
    (hp : ∀ x ∈ pre, x.key ≠ k) (hk : it.key = k)
    (hdrop : c.conf_burst ≤ it.count)
    (hlt : 0 < c.conf_limit_timeout)
    (hle : c.conf_limit_timeout ≤ (elapsed now it.ts : Int))
    (hlt2 : (elapsed now it.ts : Int) < c.conf_burst_timeout)
    (hbt2 : is_int c.conf_burst_timeout) :
    connlimit_check c now k (pre ++ it :: post) =
      (0, { it with ts := now, count := it.count + 1 } ::
        (pre.filter (fun x => !stale c now x) ++ post)) ∧
    (connlimit_check c now k (connlimit_check c now k (pre ++ it :: post)).2).1 = -1 := by
  have e1 := to_uint_of_range c.conf_burst_timeout (by omega) (by unfold is_int at hbt2; omega)
  have e2 := to_uint_of_range c.conf_limit_timeout (by omega) (by unfold is_int at hbt2; omega)
  have n1 : ¬ (elapsed now it.ts ≥ to_uint c.conf_burst_timeout) := by omega
  have n2 : elapsed now it.ts ≥ to_uint c.conf_limit_timeout := by omega
  have n3 : it.count + 1 ≥ c.conf_burst := by omega
  have n4 : it.count + 1 + 1 ≥ c.conf_burst := by omega
  have z1 : ¬ (0 ≥ to_uint c.conf_burst_timeout) := by omega
  have z2 : ¬ (0 ≥ to_uint c.conf_limit_timeout) := by omega
  have first : connlimit_check c now k (pre ++ it :: post) =
      (0, { it with ts := now, count := it.count + 1 } ::
        (pre.filter (fun x => !stale c now x) ++ post)) := by
    simp [connlimit_check, scan_append c now k pre (it :: post) hp, scan, hk, n1, n2, n3, relink]
  refine ⟨first, ?_⟩
  rw [first]
  simp [connlimit_check, scan, hk, elapsed_self, z1, z2, n4, relink]

/-- Witness of C4, the scenario of the specification: in the drop state (count 4, burst 3),
150 ms after the last accepted attempt with a sustained interval of 100 ms. -/
theorem sustained_accept_then_drop_witness :
    connlimit_check ⟨3, 60000, 100⟩ ⟨5, 150000000⟩ 167772161
      ([] ++ ({ key := 167772161, ts := ⟨5, 0⟩, count := 4 } : item) :: []) =
      (0, { key := 167772161, ts := ⟨5, 150000000⟩, count := 4 + 1 } ::
        (([] : List item).filter (fun x => !stale ⟨3, 60000, 100⟩ ⟨5, 150000000⟩ x) ++ [])) ∧
    (connlimit_check ⟨3, 60000, 100⟩ ⟨5, 150000000⟩ 167772161
      (connlimit_check ⟨3, 60000, 100⟩ ⟨5, 150000000⟩ 167772161
        ([] ++ ({ key := 167772161, ts := ⟨5, 0⟩, count := 4 } : item) :: [])).2).1 = -1 :=
  sustained_accept_then_drop ⟨3, 60000, 100⟩ ⟨5, 150000000⟩ 167772161 []
    { key := 167772161, ts := ⟨5, 0⟩, count := 4 } [] (by simp) rfl (by decide) (by decide)
    (by decide) (by decide) (by decide)

/-- The shape of a Drop: the list splits at its first entry for `k`, whose elapsed value is
below the burst-window timeout; that entry stays in place with its count incremented, the
scan has evicted the stale entries in front of it, and the entries behind it are untouched. -/
theorem drop_shape (c : conf) (now : timespec) (k : Nat) (items : List item)
    (h : (connlimit_check c now k items).1 = -1) :
    ∃ pre it post, items = pre ++ it :: post ∧ (∀ x ∈ pre, x.key ≠ k) ∧ it.key = k ∧
      ¬ (elapsed now it.ts ≥ to_uint c.conf_burst_timeout) ∧
      (connlimit_check c now k items).2 =
        pre.filter (fun x => !stale c now x) ++
          { it with count := it.count + 1 } :: post := by
  rcases first_match_split k items with hn | ⟨pre, it, post, he, hp, hk⟩
  · have h0 := (connlimit_check_first_seen c now k items hn).1
    rw [h0] at h
    exact absurd h (by decide)
  · subst he
    have hs := scan_append c now k pre (it :: post) hp
    by_cases n1 : elapsed now it.ts ≥ to_uint c.conf_burst_timeout
    · simp [connlimit_check, hs, scan, hk, n1] at h
    · refine ⟨pre, it, post, rfl, hp, hk, n1, ?_⟩
      by_cases n3 : it.count + 1 ≥ c.conf_burst
      · by_cases n2 : elapsed now it.ts ≥ to_uint c.conf_limit_timeout
        · simp [connlimit_check, hs, scan, hk, n1, n2, n3] at h
        · simp [connlimit_check, hs, scan, hk, n1, n2, n3, relink]
      · simp [connlimit_check, hs, scan, hk, n1, n3] at h

theorem connlimit_flush_eq_nil (items : List item) : connlimit_flush items = [] := by
  induction items with
  | nil => rfl
  | cons x rest ih => simpa [connlimit_flush] using ih

theorem flush_key_no_match (k : Nat) (items : List item) (h : ∀ x ∈ items, x.key ≠ k) :
    connlimit_flush_key k items = items := by
  induction items with
  | nil => rfl
  | cons x rest ih =>
    have hx : x.key ≠ k := h x (List.mem_cons_self _ _)
    have hr : ∀ y ∈ rest, y.key ≠ k := fun y hy => h y (List.mem_cons_of_mem _ hy)
    simp [connlimit_flush_key, hx, ih hr]

theorem flush_key_removes (k : Nat) (items : List item)
    (hu : (items.filter (fun it => it.key = k)).length ≤ 1) :
    ∀ x ∈ connlimit_flush_key k items, x.key ≠ k := by
  induction items with
  | nil => simp [connlimit_flush_key]
  | cons y rest ih =>
    by_cases hy : y.key = k
    · have hnone : ∀ a ∈ rest, ¬ a.key = k := by
        simpa [List.filter_cons, hy] using hu
      simp only [connlimit_flush_key, hy, if_true]
      exact hnone
    · have hu2 : (rest.filter (fun it => it.key = k)).length ≤ 1 := by
        simpa [List.filter_cons, hy] using hu
      simp only [connlimit_flush_key, hy, if_false]
      intro x hx
      rcases List.mem_cons.mp hx with rfl | hx
      · exact hy
      · exact ih hu2 x hx

/-- C6: after `connlimit_flush` the list is empty, and after `connlimit_flush_key k` on a list
that holds at most one entry per identity (the list invariant) no entry for `k` is left; in both
cases the next `connlimit_check k` returns Accept (0) and puts a fresh entry for `k` (count 0,
timestamp `now`) at the front. When `k` has no entry, `connlimit_flush_key k` leaves the list
unchanged. -/
theorem flush_then_check_first_seen (c : conf) (now : timespec) (k : Nat) (items : List item) :
    (connlimit_flush items = [] ∧
      connlimit_check c now k (connlimit_flush items) =
        (0, [{ key := k, ts := now, count := 0 }])) ∧
    ((items.filter (fun it => it.key = k)).length ≤ 1 →
      (∀ x ∈ connlimit_flush_key k items, x.key ≠ k) ∧
      connlimit_check c now k (connlimit_flush_key k items) =
        (0, { key := k, ts := now, count := 0 } ::
          (connlimit_flush_key k items).filter (fun it => !stale c now it))) ∧
    ((∀ x ∈ items, x.key ≠ k) → connlimit_flush_key k items = items) := by
  refine ⟨⟨connlimit_flush_eq_nil items, ?_⟩, ?_, flush_key_no_match k items⟩
  · rw [connlimit_flush_eq_nil]
    simp [connlimit_check, scan, relink]
  · intro hu
    have hr := flush_key_removes k items hu
    obtain ⟨h1, h2, _⟩ := connlimit_check_first_seen c now k _ hr
    exact ⟨hr, Prod.ext h1 h2⟩

/-- Witness of C6: an entry for identity 1 in the drop state behind an entry of identity 2. -/
theorem flush_then_check_first_seen_witness :
    connlimit_flush_key 1
      [{ key := 2, ts := ⟨99, 0⟩, count := 0 }, { key := 1, ts := ⟨100, 0⟩, count := 7 }] =
      [{ key := 2, ts := ⟨99, 0⟩, count := 0 }] ∧
    connlimit_check conf_default ⟨100, 0⟩ 1 (connlimit_flush_key 1
      [{ key := 2, ts := ⟨99, 0⟩, count := 0 }, { key := 1, ts := ⟨100, 0⟩, count := 7 }]) =
      (0, [{ key := 1, ts := ⟨100, 0⟩, count := 0 }, { key := 2, ts := ⟨99, 0⟩, count := 0 }]) := by
  have h := (flush_then_check_first_seen conf_default ⟨100, 0⟩ 1
    [{ key := 2, ts := ⟨99, 0⟩, count := 0 }, { key := 1, ts := ⟨100, 0⟩, count := 7 }]).2.1
    (by decide)
  refine ⟨by decide, ?_⟩
  rw [h.2]
  decide

/-- C7: when the address argument does not parse (the MAC scan converts other than six bytes,
or the IPv4 parser returns length 0), `connlimit flush mac <arg>` and `connlimit flush ip <arg>`
send exactly one response, `invalid format`, return `CLI_CMD_OK`, and leave the entry list
unchanged. -/
theorem flush_bad_address (e : externs) (time_now : Int) (arg : String) (st : cli_state) :
    ((e.sscanf_mac arg).1 ≠ 6 →
      cmd_exec e time_now ["connlimit", "flush", "mac", arg] 4 st =
        (e.CLI_CMD_OK, { items := st.items, sent := st.sent ++ ["invalid format\r\n"] })) ∧
    ((e.u_parse_ip4addr arg).1 = 0 →
      cmd_exec e time_now ["connlimit", "flush", "ip", arg] 4 st =
        (e.CLI_CMD_OK, { items := st.items, sent := st.sent ++ ["invalid format\r\n"] })) := by
  constructor
  · intro h
    simp [cmd_exec, connlimit_flush_mac, cli_send, h]
  · intro h
    simp [cmd_exec, connlimit_flush_ip, cli_send, h]

/-- Witness of C7: `zz:zz:zz:zz:zz:zz` as a MAC address and `10.0.0.256` as an IPv4 address with
the sample scanners, on a list with one entry. -/
theorem flush_bad_address_witness :
    cmd_exec sample_externs 0 ["connlimit", "flush", "mac", "zz:zz:zz:zz:zz:zz"] 4
      { items := [{ key := 1, ts := ⟨0, 0⟩, count := 0 }], sent := [] } =
      (0, { items := [{ key := 1, ts := ⟨0, 0⟩, count := 0 }],
            sent := [] ++ ["invalid format\r\n"] }) ∧
    cmd_exec sample_externs 0 ["connlimit", "flush", "ip", "10.0.0.256"] 4
      { items := [{ key := 1, ts := ⟨0, 0⟩, count := 0 }], sent := [] } =
      (0, { items := [{ key := 1, ts := ⟨0, 0⟩, count := 0 }],
            sent := [] ++ ["invalid format\r\n"] }) :=
  ⟨(flush_bad_address sample_externs 0 "zz:zz:zz:zz:zz:zz"
      { items := [{ key := 1, ts := ⟨0, 0⟩, count := 0 }], sent := [] }).1 (by decide),
   (flush_bad_address sample_externs 0 "10.0.0.256"
      { items := [{ key := 1, ts := ⟨0, 0⟩, count := 0 }], sent := [] }).2 (by decide)⟩

/-! ### `strtol` on decimal numerals -/

theorem digit_not_space (ch : Char) (h : ch.isDigit = true) :
    is_space ch = false ∧ ch ≠ '-' ∧ ch ≠ '+' := by
  refine ⟨?_, ?_, ?_⟩
  · simp only [is_space, Bool.or_eq_false_iff, decide_eq_false_iff_not]
    refine ⟨⟨⟨⟨⟨?_, ?_⟩, ?_⟩, ?_⟩, ?_⟩, ?_⟩ <;> (rintro rfl; revert h; decide)
  · rintro rfl; revert h; decide
  · rintro rfl; revert h; decide

theorem takeWhile_digits (ds rest : List Char) (hd : ∀ ch ∈ ds, ch.isDigit = true)
    (hr : ∀ ch ∈ rest.head?, ch.isDigit = false) :
    (ds ++ rest).takeWhile Char.isDigit = ds ∧ (ds ++ rest).dropWhile Char.isDigit = rest := by
  induction ds with
  | nil =>
    cases rest with
    | nil => simp
    | cons r rs =>
      have := hr r (by simp)
      simp [List.takeWhile, List.dropWhile, this]
  | cons d ds ih =>
    have h1 := hd d (List.mem_cons_self _ _)
    have h2 := ih (fun ch hch => hd ch (List.mem_cons_of_mem _ hch))
    simp [List.takeWhile, List.dropWhile, h1, h2.1, h2.2]

/-- The function `strtol` on a non-empty run of digits followed by a non-digit (or the end of
the string): the value of the digits, clamped, and the text after them. -/
theorem strtol_digits (ds rest : List Char) (hne : ds ≠ [])
    (hd : ∀ ch ∈ ds, ch.isDigit = true) (hr : ∀ ch ∈ rest.head?, ch.isDigit = false) :
    strtol (ds ++ rest) = (min (dec_val ds : Int) 9223372036854775807, rest) := by
  obtain ⟨d, tl, rfl⟩ := List.exists_cons_of_ne_nil hne
  have h1 := digit_not_space d (hd d (List.mem_cons_self _ _))
  have htd := takeWhile_digits (d :: tl) rest hd hr
  have hs1 : (d :: tl ++ rest).dropWhile is_space = d :: tl ++ rest := by
    simp [List.dropWhile, h1.1]
  have hmax : max (-9223372036854775808 : Int) (min (dec_val (d :: tl) : Int) 9223372036854775807)
      = min (dec_val (d :: tl) : Int) 9223372036854775807 := by
    apply max_eq_right
    have : (0 : Int) ≤ (dec_val (d :: tl) : Int) := Int.ofNat_nonneg _
    omega
  have hh : (d :: tl ++ rest).head? = some d := rfl
  have hneg : ¬ ((d :: tl ++ rest).head? = some '-') := by
    rw [hh]; intro h; exact h1.2.1 (Option.some.inj h)
  have hpos : ¬ ((d :: tl ++ rest).head? = some '+') := by
    rw [hh]; intro h; exact h1.2.2 (Option.some.inj h)
  have hsign : ¬ ((d :: tl ++ rest).head? = some '-' ∨ (d :: tl ++ rest).head? = some '+') := by
    rintro (h | h)
    · exact hneg h
    · exact hpos h
  unfold strtol
  dsimp only
  rw [hs1, if_neg hsign, htd.1, htd.2, if_neg hne, if_neg hneg, hmax]

theorem to_int_of_is_int (x : Int) (h : is_int x) : to_int x = x := by
  unfold is_int at h
  unfold to_int
  omega

theorem slash_not_digit : ∀ ch ∈ ('/' :: (tl : List Char)).head?, ch.isDigit = false := by
  intro ch h
  simp only [List.head?_cons, Option.mem_def, Option.some.injEq] at h
  subst h
  decide

/-- The function `parse_limit` on `N` alone. -/
theorem parse_limit_count (ds1 : List Char)
    (h1 : ds1 ≠ []) (h1d : ∀ ch ∈ ds1, ch.isDigit = true) (hN : dec_val ds1 ≤ 2147483647) :
    parse_limit ds1 = some ((dec_val ds1 : Int), 1) := by
  have s3 := strtol_digits ds1 [] h1 h1d (by simp)
  rw [List.append_nil] at s3
  have hmin1 : min (dec_val ds1 : Int) 9223372036854775807 = (dec_val ds1 : Int) :=
    min_eq_left (by omega)
  have i1 : to_int (dec_val ds1 : Int) = (dec_val ds1 : Int) :=
    to_int_of_is_int _ (by unfold is_int; omega)
  unfold parse_limit
  rw [s3]
  simp only [hmin1, i1]

/-- The function `parse_limit` on `N/T` followed by a unit `s`, `m` or `h`. -/
theorem parse_limit_rate (ds1 ds2 : List Char) (u : Char) (m : Nat)
    (h1 : ds1 ≠ []) (h1d : ∀ ch ∈ ds1, ch.isDigit = true) (hN : dec_val ds1 ≤ 2147483647)
    (h2 : ds2 ≠ []) (h2d : ∀ ch ∈ ds2, ch.isDigit = true) (hT : dec_val ds2 ≤ 2147483647)
    (hu : (u = 's' ∧ m = 1) ∨ (u = 'm' ∧ m = 60) ∨ (u = 'h' ∧ m = 3600)) :
    parse_limit (ds1 ++ '/' :: (ds2 ++ [u])) =
      some ((dec_val ds1 : Int), (dec_val ds2 : Int) * (m : Int)) := by
  have hund : ∀ ch ∈ ([u] : List Char).head?, ch.isDigit = false := by
    intro ch h
    simp only [List.head?_cons, Option.mem_def, Option.some.injEq] at h
    subst h
    rcases hu with ⟨rfl, _⟩ | ⟨rfl, _⟩ | ⟨rfl, _⟩ <;> decide
  have s1 := strtol_digits ds1 ('/' :: (ds2 ++ [u])) h1 h1d slash_not_digit
  have s2 := strtol_digits ds2 [u] h2 h2d hund
  have hmin1 : min (dec_val ds1 : Int) 9223372036854775807 = (dec_val ds1 : Int) :=
    min_eq_left (by omega)
  have hmin2 : min (dec_val ds2 : Int) 9223372036854775807 = (dec_val ds2 : Int) :=
    min_eq_left (by omega)
  have i1 : to_int (dec_val ds1 : Int) = (dec_val ds1 : Int) :=
    to_int_of_is_int _ (by unfold is_int; omega)
  have i2 : to_int (dec_val ds2 : Int) = (dec_val ds2 : Int) :=
    to_int_of_is_int _ (by unfold is_int; omega)
  have hlen : ¬ ([u] = ds2 ++ [u]) := by
    intro h
    have := congrArg List.length h
    simp only [List.length_cons, List.length_nil, List.length_append] at this
    exact h2 (List.length_eq_zero.mp (by omega))
  unfold parse_limit
  rw [s1]
  simp only [ne_eq, not_true_eq_false, if_false, s2, hlen, hmin1, hmin2, i1, i2]
  rcases hu with ⟨rfl, rfl⟩ | ⟨rfl, rfl⟩ | ⟨rfl, rfl⟩ <;> simp

theorem load_burst_timeout_limit (get : String → String → Option (List Char)) (c : conf) :
    (load_burst_timeout get c).conf_limit_timeout = c.conf_limit_timeout := by
  unfold load_burst_timeout
  cases get "connlimit" "burst" <;> cases get "connlimit" "timeout" <;> rfl

theorem load_config_limit (get : String → String → Option (List Char)) (c : conf)
    (opt : List Char) (n t : Nat) (hg : get "connlimit" "limit" = some opt)
    (hp : parse_limit opt = some ((n : Int), (t : Int))) (hn : 1 ≤ n) :
    (load_config get c).map (fun c1 => c1.conf_limit_timeout) =
      some ((t * 1000 / n : Nat) : Int) := by
  have hn0 : ¬ ((n : Int) = 0) := by omega
  have hdiv : Int.tdiv ((t : Int) * 1000) (n : Int) = ((t * 1000 / n : Nat) : Int) := by
    have : ((t : Int) * 1000) = ((t * 1000 : Nat) : Int) := by push_cast; ring
    rw [this]; rfl
  unfold load_config
  simp only [hg, hp, hn0, if_false, Option.map_some', load_burst_timeout_limit, hdiv]

/-- C8: for decimal numerals of `N ≥ 1` and `T ≥ 0` within the range of `int`, loading the
`limit` option sets `conf_limit_timeout` to `T * 1000 / N` for `N/Ts`, to `(T * 60) * 1000 / N`
for `N/Tm`, to `(T * 3600) * 1000 / N` for `N/Th`, and to `1000 / N` for `N` alone, with integer
division. -/
theorem load_config_limit_interval (get : String → String → Option (List Char)) (c : conf)
    (ds1 ds2 : List Char)
    (h1 : ds1 ≠ []) (h1d : ∀ ch ∈ ds1, ch.isDigit = true)
    (hN1 : 1 ≤ dec_val ds1) (hN : dec_val ds1 ≤ 2147483647)
    (h2 : ds2 ≠ []) (h2d : ∀ ch ∈ ds2, ch.isDigit = true) :
    (dec_val ds2 * 1000 ≤ 2147483647 →
      get "connlimit" "limit" = some (ds1 ++ '/' :: (ds2 ++ ['s'])) →
      (load_config get c).map (fun c1 => c1.conf_limit_timeout) =
        some ((dec_val ds2 * 1000 / dec_val ds1 : Nat) : Int)) ∧
    (dec_val ds2 * 60 * 1000 ≤ 2147483647 →
      get "connlimit" "limit" = some (ds1 ++ '/' :: (ds2 ++ ['m'])) →
      (load_config get c).map (fun c1 => c1.conf_limit_timeout) =
        some ((dec_val ds2 * 60 * 1000 / dec_val ds1 : Nat) : Int)) ∧
    (dec_val ds2 * 3600 * 1000 ≤ 2147483647 →
      get "connlimit" "limit" = some (ds1 ++ '/' :: (ds2 ++ ['h'])) →
      (load_config get c).map (fun c1 => c1.conf_limit_timeout) =
        some ((dec_val ds2 * 3600 * 1000 / dec_val ds1 : Nat) : Int)) ∧
    (get "connlimit" "limit" = some ds1 →
      (load_config get c).map (fun c1 => c1.conf_limit_timeout) =
        some ((1000 / dec_val ds1 : Nat) : Int)) := by
  refine ⟨?_, ?_, ?_, ?_⟩
  · intro hT hg
    have hp := parse_limit_rate ds1 ds2 's' 1 h1 h1d hN h2 h2d (by omega) (by simp)
    have := load_config_limit get c _ (dec_val ds1) (dec_val ds2 * 1) hg
      (by rw [hp]; push_cast; rfl) hN1
    simpa using this
  · intro hT hg
    have hp := parse_limit_rate ds1 ds2 'm' 60 h1 h1d hN h2 h2d (by omega) (by simp)
    exact load_config_limit get c _ (dec_val ds1) (dec_val ds2 * 60) hg
      (by rw [hp]; push_cast; rfl) hN1
  · intro hT hg
    have hp := parse_limit_rate ds1 ds2 'h' 3600 h1 h1d hN h2 h2d (by omega) (by simp)
    exact load_config_limit get c _ (dec_val ds1) (dec_val ds2 * 3600) hg
      (by rw [hp]; push_cast; rfl) hN1
  · intro hg
    have hp := parse_limit_count ds1 h1 h1d hN
    have := load_config_limit get c _ (dec_val ds1) 1 hg (by rw [hp]; push_cast; rfl) hN1
    simpa using this

/-- Witness of C8, the scenario of the specification: `limit=10/1s` gives a sustained interval
of 100 ms. -/
theorem load_config_limit_interval_witness :
    (load_config (fun _ name => if name = "limit" then some ['1', '0', '/', '1', 's'] else none)
      conf_default).map (fun c1 => c1.conf_limit_timeout) = some 100 :=
  (load_config_limit_interval
    (fun _ name => if name = "limit" then some ['1', '0', '/', '1', 's'] else none)
    conf_default ['1', '0'] ['1'] (by decide) (by decide) (by decide) (by decide) (by decide)
    (by decide)).1 (by decide) (by decide)

/-- C13, the code at a failing input: an entry created at second 100 and shown at second 3761
has an age of 3661 s. `fmt_age` prints `01:01:01` and, as raw age, `61`: the raw text is
printed after `uptime %= (60 * 60)`, so it is the age modulo 3600 and not the age 3661. -/
theorem fmt_age_raw_wraps_at_one_hour :
    (3761 : Int) - (⟨100, 0⟩ : timespec).tv_sec = 3661 ∧
    fmt_age ⟨100, 0⟩ 3761 = ("01:01:01", "61") ∧
    (fmt_age ⟨100, 0⟩ 3761).2 ≠ "3661" := by
  refine ⟨by decide, by decide, by decide⟩

/-- C17, the code at failing inputs. From `ts = 0.9005 s` to `now = 1 s` the elapsed time is
99.5 ms, 99 whole milliseconds, but `d` is 100: the division of the negative nanosecond
difference truncates towards zero. From `ts = 0` to `now = 4294967.296 s` the elapsed time is
`2 ^ 32` ms, but `d` is 0: the value is narrowed to `unsigned int`. -/
theorem elapsed_not_floor_ms :
    (((1 : Int) - 0) * 1000000000 + (0 - 900500000)) / 1000000 = 99 ∧
    elapsed ⟨1, 0⟩ ⟨0, 900500000⟩ = 100 ∧
    (((4294967 : Int) - 0) * 1000000000 + (296000000 - 0)) / 1000000 = 4294967296 ∧
    elapsed ⟨4294967, 296000000⟩ ⟨0, 0⟩ = 0 := by
  refine ⟨by decide, by decide, by decide, by decide⟩

/-- C19, the code at a failing input: for the option `limit=0` the function `parse_limit`
succeeds with count 0 and time 1, and `load_config` divides `1 * 1000` by zero. -/
theorem load_config_divides_by_zero :
    parse_limit ['0'] = some (0, 1) ∧
    load_config (fun _ name => if name = "limit" then some ['0'] else none) conf_default =
      none := by
  refine ⟨by decide, by decide⟩

/-! ## The shape of the list after a check -/

/-- Every outcome of `connlimit_check`: without an entry for `k` a fresh entry is put in front
of the entries that are not stale; otherwise the list splits at the first entry for `k`, the
stale entries in front of it are evicted, and that entry is either moved to the front with
timestamp `now` or stays in place with its old timestamp. -/
theorem check_cases (c : conf) (now : timespec) (k : Nat) (items : List item) :
    ((∀ x ∈ items, x.key ≠ k) ∧
      (connlimit_check c now k items).2 =
        { key := k, ts := now, count := 0 } :: items.filter (fun x => !stale c now x)) ∨
    ∃ pre it post it', items = pre ++ it :: post ∧ (∀ x ∈ pre, x.key ≠ k) ∧ it.key = k ∧
      it'.key = k ∧
      (((connlimit_check c now k items).2 =
          it' :: (pre.filter (fun x => !stale c now x) ++ post) ∧ it'.ts = now) ∨
       ((connlimit_check c now k items).2 =
          pre.filter (fun x => !stale c now x) ++ it' :: post ∧ it'.ts = it.ts)) := by
  rcases first_match_split k items with hn | ⟨pre, it, post, he, hp, hk⟩
  · exact Or.inl ⟨hn, (connlimit_check_first_seen c now k items hn).2.1⟩
  · right
    subst he
    have hs := scan_append c now k pre (it :: post) hp
    by_cases n1 : elapsed now it.ts ≥ to_uint c.conf_burst_timeout
    · refine ⟨pre, it, post, { it with ts := now, count := 0 }, rfl, hp, hk, hk, Or.inl ⟨?_, rfl⟩⟩
      simp [connlimit_check, hs, scan, hk, n1, relink]
    · by_cases n3 : it.count + 1 ≥ c.conf_burst
      · by_cases n2 : elapsed now it.ts ≥ to_uint c.conf_limit_timeout
        · refine ⟨pre, it, post, { it with ts := now, count := it.count + 1 }, rfl, hp, hk, hk,
            Or.inl ⟨?_, rfl⟩⟩
          simp [connlimit_check, hs, scan, hk, n1, n2, n3, relink]
        · refine ⟨pre, it, post, { it with count := it.count + 1 }, rfl, hp, hk, hk,
            Or.inr ⟨?_, rfl⟩⟩
          simp [connlimit_check, hs, scan, hk, n1, n2, n3, relink]
      · refine ⟨pre, it, post, { it with count := it.count + 1 }, rfl, hp, hk, hk,
          Or.inr ⟨?_, rfl⟩⟩
        simp [connlimit_check, hs, scan, hk, n1, n3, relink]

theorem flush_key_sublist (k : Nat) (items : List item) :
    (connlimit_flush_key k items).Sublist items := by
  induction items with
  | nil => exact List.Sublist.refl _
  | cons x rest ih =>
    by_cases hx : x.key = k
    · simp only [connlimit_flush_key, hx, if_true]
      exact List.sublist_cons_self _ _
    · simp only [connlimit_flush_key, hx, if_false]
      exact ih.cons₂ _

/-! ## C14: at most one entry per identity -/

theorem unique_keys_check (c : conf) (now : timespec) (k : Nat) (items : List item)
    (h : unique_keys items) : unique_keys (connlimit_check c now k items).2 := by
  unfold unique_keys at *
  rcases check_cases c now k items with ⟨hn, he⟩ | ⟨pre, it, post, it', he, hp, hk, hk', hc⟩
  · rw [he, List.map_cons, List.nodup_cons]
    constructor
    · intro hmem
      obtain ⟨x, hx, hxk⟩ := List.mem_map.mp hmem
      exact hn x (List.mem_of_mem_filter hx) hxk
    · exact h.sublist (List.filter_sublist items |>.map _)
  · subst he
    have hsub : ((pre.filter (fun x => !stale c now x)).map (fun it => it.key)).Sublist
        (pre.map (fun it => it.key)) := (List.filter_sublist pre).map _
    rw [List.map_append, List.map_cons, hk] at h
    rcases hc with ⟨he, _⟩ | ⟨he, _⟩
    · rw [he, List.map_cons, List.map_append, hk']
      have hperm : (k :: (pre.map (fun it => it.key) ++ post.map (fun it => it.key))).Perm
          (pre.map (fun it => it.key) ++ k :: post.map (fun it => it.key)) :=
        List.perm_middle.symm
      have hnd := hperm.nodup_iff.mpr h
      exact hnd.sublist ((hsub.append (List.Sublist.refl _)).cons₂ k)
    · rw [he, List.map_append, List.map_cons, hk']
      exact h.sublist (hsub.append (List.Sublist.refl _))

/-- C14: `the list holds at most one entry per identity` holds for the empty list and is
preserved by `connlimit_check` (for every configuration, clock value and identity), by
`connlimit_flush` and by `connlimit_flush_key`; hence it holds after every sequence of these
operations that starts from the empty list. -/
theorem unique_keys_invariant :
    unique_keys [] ∧
    (∀ (c : conf) (now : timespec) (k : Nat) (items : List item),
      unique_keys items → unique_keys (connlimit_check c now k items).2) ∧
    (∀ items : List item, unique_keys (connlimit_flush items)) ∧
    (∀ (k : Nat) (items : List item),
      unique_keys items → unique_keys (connlimit_flush_key k items)) ∧
    (∀ ops : List op, unique_keys (run_ops ops)) := by
  have h0 : unique_keys [] := by simp [unique_keys]
  have hflush : ∀ items : List item, unique_keys (connlimit_flush items) := by
    intro items; rw [connlimit_flush_eq_nil]; exact h0
  have hkey : ∀ (k : Nat) (items : List item),
      unique_keys items → unique_keys (connlimit_flush_key k items) := by
    intro k items h
    unfold unique_keys at *
    exact h.sublist ((flush_key_sublist k items).map _)
  have hstep : ∀ (o : op) (items : List item), unique_keys items → unique_keys (step items o) := by
    intro o items h
    cases o with
    | check c now key => exact unique_keys_check c now key items h
    | flush => exact hflush items
    | flush_key key => exact hkey key items h
  have hrun : ∀ (ops : List op) (items : List item),
      unique_keys items → unique_keys (ops.foldl step items) := by
    intro ops
    induction ops with
    | nil => intro items h; exact h
    | cons o rest ih => intro items h; exact ih _ (hstep o items h)
  exact ⟨h0, unique_keys_check, hflush, hkey, fun ops => hrun ops [] h0⟩

/-- Witness of C14: a check of identity 1 on a list with one entry for each of 2 and 1. -/
theorem unique_keys_invariant_witness :
    unique_keys (connlimit_check conf_default ⟨100, 0⟩ 1
      [{ key := 2, ts := ⟨99, 0⟩, count := 0 }, { key := 1, ts := ⟨98, 0⟩, count := 7 }]).2 ∧
    unique_keys (run_ops [op.check conf_default ⟨1, 0⟩ 1, op.check conf_default ⟨2, 0⟩ 2,
      op.check conf_default ⟨3, 0⟩ 1, op.flush_key 2, op.check conf_default ⟨4, 0⟩ 2]) :=
  ⟨unique_keys_invariant.2.1 conf_default ⟨100, 0⟩ 1
      [{ key := 2, ts := ⟨99, 0⟩, count := 0 }, { key := 1, ts := ⟨98, 0⟩, count := 7 }]
      (by decide),
   unique_keys_invariant.2.2.2.2 _⟩

/-! ## C15: most recent first -/

theorem ts_le_trans (a b d : timespec) (h1 : ts_le a b) (h2 : ts_le b d) : ts_le a d := by
  unfold ts_le at *
  omega

theorem recent_first_iff (items : List item) :
    recent_first items ↔ (items.map (fun it => it.ts)).Pairwise (fun a b => ts_le b a) := by
  unfold recent_first
  exact List.chain'_iff_pairwise

theorem recent_first_check (c : conf) (now : timespec) (k : Nat) (items : List item)
    (h : recent_first items) (hnow : ∀ it ∈ items, ts_le it.ts now) :
    recent_first (connlimit_check c now k items).2 := by
  rw [recent_first_iff] at *
  rcases check_cases c now k items with ⟨_, he⟩ | ⟨pre, it, post, it', he, _, _, _, hc⟩
  · rw [he, List.map_cons, List.pairwise_cons]
    constructor
    · intro b hb
      obtain ⟨x, hx, rfl⟩ := List.mem_map.mp hb
      exact hnow x (List.mem_of_mem_filter hx)
    · exact h.sublist ((List.filter_sublist items).map _)
  · subst he
    have hsub : (pre.filter (fun x => !stale c now x)).Sublist pre := List.filter_sublist pre
    rcases hc with ⟨he, hts⟩ | ⟨he, hts⟩
    · rw [he, List.map_cons, hts, List.pairwise_cons]
      have hsub2 : (pre.filter (fun x => !stale c now x) ++ post).Sublist (pre ++ it :: post) :=
        hsub.append (List.sublist_cons_self it post)
      constructor
      · intro b hb
        obtain ⟨x, hx, rfl⟩ := List.mem_map.mp hb
        exact hnow x (hsub2.subset hx)
      · exact h.sublist (hsub2.map _)
    · rw [he, List.map_append, List.map_cons, hts]
      rw [List.map_append, List.map_cons] at h
      exact h.sublist ((hsub.map _).append (List.Sublist.refl _))

/-- C15: if the timestamps do not increase from the front of the list to its tail and the
current time is not earlier than any stored timestamp, then the same ordering holds after
`connlimit_check`, after `connlimit_flush` and after `connlimit_flush_key`. -/
theorem recent_first_preserved (c : conf) (now : timespec) (k : Nat) (items : List item)
    (h : recent_first items) (hnow : ∀ it ∈ items, ts_le it.ts now) :
    recent_first (connlimit_check c now k items).2 ∧
    recent_first (connlimit_flush items) ∧
    recent_first (connlimit_flush_key k items) := by
  refine ⟨recent_first_check c now k items h hnow, ?_, ?_⟩
  · rw [connlimit_flush_eq_nil]
    simp [recent_first]
  · rw [recent_first_iff] at *
    exact h.sublist ((flush_key_sublist k items).map _)

/-- Witness of C15: the entry for identity 1 is in the drop state and past the sustained
interval, so the check moves it from the tail to the front with the current time. -/
theorem recent_first_preserved_witness :
    recent_first (connlimit_check conf_default ⟨110, 0⟩ 1
      [{ key := 2, ts := ⟨105, 0⟩, count := 0 }, { key := 1, ts := ⟨100, 0⟩, count := 7 }]).2 ∧
    (connlimit_check conf_default ⟨110, 0⟩ 1
      [{ key := 2, ts := ⟨105, 0⟩, count := 0 }, { key := 1, ts := ⟨100, 0⟩, count := 7 }]).2 =
      [{ key := 1, ts := ⟨110, 0⟩, count := 8 }, { key := 2, ts := ⟨105, 0⟩, count := 0 }] :=
  ⟨(recent_first_preserved conf_default ⟨110, 0⟩ 1
      [{ key := 2, ts := ⟨105, 0⟩, count := 0 }, { key := 1, ts := ⟨100, 0⟩, count := 7 }]
      (by simp [recent_first, ts_le]) (by decide)).1, by decide⟩

/-! ## C16: which entries a check evicts -/

/-- C16, counterexample to the claim as stated: the entry of identity 2 is 100000 ms old, more
than the burst-window timeout of 60000 ms, but it lies behind the entry for identity 1, where
the scan of `connlimit_check 1` stops; it is still in the list after the call. -/
theorem check_keeps_stale_behind_match :
    conf_default.conf_burst_timeout < elapsed_long ⟨100, 0⟩ ⟨0, 0⟩ ∧
    connlimit_check conf_default ⟨100, 0⟩ 1
      [{ key := 1, ts := ⟨100, 0⟩, count := 0 }, { key := 2, ts := ⟨0, 0⟩, count := 0 }] =
      (0, [{ key := 1, ts := ⟨100, 0⟩, count := 1 }, { key := 2, ts := ⟨0, 0⟩, count := 0 }]) := by
  refine ⟨by decide, by decide⟩

theorem stale_iff_long (c : conf) (now : timespec) (x : item)
    (hbt : 0 ≤ c.conf_burst_timeout) (hbt2 : is_int c.conf_burst_timeout)
    (hr : 0 ≤ elapsed_long now x.ts ∧ elapsed_long now x.ts < 4294967296) :
    (!stale c now x) = decide (elapsed_long now x.ts ≤ c.conf_burst_timeout) := by
  have e1 := to_uint_of_range c.conf_burst_timeout hbt (by unfold is_int at hbt2; omega)
  have e2 := to_uint_of_range (elapsed_long now x.ts) hr.1 hr.2
  unfold stale elapsed
  by_cases h : elapsed_long now x.ts ≤ c.conf_burst_timeout
  · have : ¬ (to_uint (elapsed_long now x.ts) > to_uint c.conf_burst_timeout) := by omega
    simp [h, this]
  · have : to_uint (elapsed_long now x.ts) > to_uint c.conf_burst_timeout := by omega
    simp [h, this]

/-- C16 as amended, for elapsed times from 0 up to `2 ^ 32` ms and a burst-window timeout that
is not negative: `connlimit_check k` removes exactly the entries that lie in front of the first
entry for `k` (all entries when `k` has none) and whose elapsed time exceeds the timeout. The
entry for `k` is kept (in place or moved to the front), and so is every entry behind it,
whatever its age. -/
theorem check_evicts_stale_in_front (c : conf) (now : timespec) (k : Nat) (items : List item)
    (hbt : 0 ≤ c.conf_burst_timeout) (hbt2 : is_int c.conf_burst_timeout)
    (hr : ∀ x ∈ items, 0 ≤ elapsed_long now x.ts ∧ elapsed_long now x.ts < 4294967296) :
    ((∀ x ∈ items, x.key ≠ k) ∧
      (connlimit_check c now k items).2 =
        { key := k, ts := now, count := 0 } ::
          items.filter (fun x => decide (elapsed_long now x.ts ≤ c.conf_burst_timeout))) ∨
    ∃ pre it post it', items = pre ++ it :: post ∧ (∀ x ∈ pre, x.key ≠ k) ∧ it.key = k ∧
      it'.key = k ∧
      ((connlimit_check c now k items).2 =
          it' :: (pre.filter
            (fun x => decide (elapsed_long now x.ts ≤ c.conf_burst_timeout)) ++ post) ∨
       (connlimit_check c now k items).2 =
          pre.filter (fun x => decide (elapsed_long now x.ts ≤ c.conf_burst_timeout)) ++
            it' :: post) := by
  have hfilter : ∀ l : List item, (∀ x ∈ l, x ∈ items) →
      l.filter (fun x => !stale c now x) =
        l.filter (fun x => decide (elapsed_long now x.ts ≤ c.conf_burst_timeout)) := by
    intro l hl
    apply List.filter_congr
    intro x hx
    exact stale_iff_long c now x hbt hbt2 (hr x (hl x hx))
  rcases check_cases c now k items with ⟨hn, he⟩ | ⟨pre, it, post, it', he, hp, hk, hk', hc⟩
  · left
    rw [hfilter items (fun x hx => hx)] at he
    exact ⟨hn, he⟩
  · right
    have hpre : ∀ x ∈ pre, x ∈ items := by
      intro x hx; rw [he]; exact List.mem_append_left _ hx
    rw [hfilter pre hpre] at hc
    refine ⟨pre, it, post, it', he, hp, hk, hk', ?_⟩
    rcases hc with ⟨h1, _⟩ | ⟨h1, _⟩
    · exact Or.inl h1
    · exact Or.inr h1

/-- Witness of C16 as amended: a stale entry in front of the match is evicted, the stale entry
behind the match stays. -/
theorem check_evicts_stale_in_front_witness :
    connlimit_check conf_default ⟨100, 0⟩ 1
      [{ key := 3, ts := ⟨1, 0⟩, count := 0 }, { key := 1, ts := ⟨100, 0⟩, count := 0 },
       { key := 2, ts := ⟨0, 0⟩, count := 0 }] =
      (0, [{ key := 1, ts := ⟨100, 0⟩, count := 1 }, { key := 2, ts := ⟨0, 0⟩, count := 0 }]) ∧
    (((∀ x ∈ [({ key := 3, ts := ⟨1, 0⟩, count := 0 } : item),
          { key := 1, ts := ⟨100, 0⟩, count := 0 }, { key := 2, ts := ⟨0, 0⟩, count := 0 }],
        x.key ≠ 1) ∧
      (connlimit_check conf_default ⟨100, 0⟩ 1
        [{ key := 3, ts := ⟨1, 0⟩, count := 0 }, { key := 1, ts := ⟨100, 0⟩, count := 0 },
         { key := 2, ts := ⟨0, 0⟩, count := 0 }]).2 =
        { key := 1, ts := ⟨100, 0⟩, count := 0 } ::
          [({ key := 3, ts := ⟨1, 0⟩, count := 0 } : item),
            { key := 1, ts := ⟨100, 0⟩, count := 0 },
            { key := 2, ts := ⟨0, 0⟩, count := 0 }].filter
            (fun x => decide (elapsed_long ⟨100, 0⟩ x.ts ≤ conf_default.conf_burst_timeout))) ∨
    ∃ pre it post it',
      [({ key := 3, ts := ⟨1, 0⟩, count := 0 } : item),
        { key := 1, ts := ⟨100, 0⟩, count := 0 }, { key := 2, ts := ⟨0, 0⟩, count := 0 }] =
        pre ++ it :: post ∧ (∀ x ∈ pre, x.key ≠ 1) ∧ it.key = 1 ∧ it'.key = 1 ∧
      ((connlimit_check conf_default ⟨100, 0⟩ 1
          [{ key := 3, ts := ⟨1, 0⟩, count := 0 }, { key := 1, ts := ⟨100, 0⟩, count := 0 },
           { key := 2, ts := ⟨0, 0⟩, count := 0 }]).2 =
          it' :: (pre.filter (fun x =>
            decide (elapsed_long ⟨100, 0⟩ x.ts ≤ conf_default.conf_burst_timeout)) ++ post) ∨
       (connlimit_check conf_default ⟨100, 0⟩ 1
          [{ key := 3, ts := ⟨1, 0⟩, count := 0 }, { key := 1, ts := ⟨100, 0⟩, count := 0 },
           { key := 2, ts := ⟨0, 0⟩, count := 0 }]).2 =
          pre.filter (fun x =>
            decide (elapsed_long ⟨100, 0⟩ x.ts ≤ conf_default.conf_burst_timeout)) ++
            it' :: post)) :=
  ⟨by decide,
   check_evicts_stale_in_front conf_default ⟨100, 0⟩ 1
    [{ key := 3, ts := ⟨1, 0⟩, count := 0 }, { key := 1, ts := ⟨100, 0⟩, count := 0 },
     { key := 2, ts := ⟨0, 0⟩, count := 0 }] (by decide) (by decide) (by decide)⟩

/-! ## C5: what a Drop changes -/

/-- The truncating division by 1000000 in terms of the flooring one. -/
theorem tdiv_million (x : Int) :
    Int.tdiv x 1000000 = if 0 ≤ x then x / 1000000 else -((-x) / 1000000) := by
  by_cases h : 0 ≤ x
  · rw [if_pos h]
    exact Int.tdiv_eq_ediv h (by norm_num)
  · rw [if_neg h]
    have e : x = -(-x) := by omega
    have h2 : Int.tdiv (-x) 1000000 = (-x) / 1000000 :=
      Int.tdiv_eq_ediv (by omega) (by norm_num)
    rw [← h2, ← Int.neg_tdiv, ← e]

/-- For normalised timespecs the value of line 50 does not grow with the timestamp: an entry
touched later has a smaller or equal elapsed value. -/
theorem elapsed_long_antitone (now a b : timespec)
    (ha : 0 ≤ a.tv_nsec ∧ a.tv_nsec < 1000000000)
    (hb : 0 ≤ b.tv_nsec ∧ b.tv_nsec < 1000000000) (hab : ts_le a b) :
    elapsed_long now b ≤ elapsed_long now a := by
  unfold ts_le at hab
  unfold elapsed_long
  rw [tdiv_million, tdiv_million]
  split_ifs <;> omega

/-- For normalised timespecs and a clock that is not earlier than the timestamp the value of
line 50 is not negative. -/
theorem elapsed_long_nonneg (now a : timespec)
    (hn : 0 ≤ now.tv_nsec ∧ now.tv_nsec < 1000000000)
    (ha : 0 ≤ a.tv_nsec ∧ a.tv_nsec < 1000000000) (hle : ts_le a now) :
    0 ≤ elapsed_long now a := by
  unfold ts_le at hle
  unfold elapsed_long
  rw [tdiv_million]
  split_ifs <;> omega

/-- C5, counterexample to the claim as stated: four checks of identity 1 at second 100 leave
one entry with count 3; the fifth check at the same clock value returns Drop (-1) and the
entry's count is 4 afterwards, not 3. -/
theorem drop_increments_count :
    run_ops [op.check conf_default ⟨100, 0⟩ 1, op.check conf_default ⟨100, 0⟩ 1,
      op.check conf_default ⟨100, 0⟩ 1, op.check conf_default ⟨100, 0⟩ 1] =
      [{ key := 1, ts := ⟨100, 0⟩, count := 3 }] ∧
    connlimit_check conf_default ⟨100, 0⟩ 1 [{ key := 1, ts := ⟨100, 0⟩, count := 3 }] =
      (-1, [{ key := 1, ts := ⟨100, 0⟩, count := 4 }]) := by
  refine ⟨by decide, by decide⟩

/-- C5 as amended: on a list that is kept most recent first, with normalised timestamps, a
clock that is not earlier than any stored timestamp and elapsed times below `2 ^ 32` ms, a
call `connlimit_check k` that returns Drop (-1) leaves the entry for `k` at its position with
its key and its timestamp and increments its attempt count by one; every other entry is
unchanged. -/
theorem drop_keeps_timestamp_and_position (c : conf) (now : timespec) (k : Nat)
    (items : List item)
    (hrf : recent_first items) (hnow : ∀ x ∈ items, ts_le x.ts now)
    (hnorm : ∀ x ∈ items, 0 ≤ x.ts.tv_nsec ∧ x.ts.tv_nsec < 1000000000)
    (hn : 0 ≤ now.tv_nsec ∧ now.tv_nsec < 1000000000)
    (hwrap : ∀ x ∈ items, elapsed_long now x.ts < 4294967296)
    (h : (connlimit_check c now k items).1 = -1) :
    ∃ pre it post, items = pre ++ it :: post ∧ (∀ x ∈ pre, x.key ≠ k) ∧ it.key = k ∧
      (connlimit_check c now k items).2 =
        pre ++ { key := it.key, ts := it.ts, count := it.count + 1 } :: post := by
  obtain ⟨pre, it, post, he, hp, hk, hd, hres⟩ := drop_shape c now k items h
  refine ⟨pre, it, post, he, hp, hk, ?_⟩
  have hit : it ∈ items := by rw [he]; simp
  have hpw := (recent_first_iff items).mp hrf
  rw [he, List.map_append, List.pairwise_append] at hpw
  have hfront : ∀ x ∈ pre, ts_le it.ts x.ts := by
    intro x hx
    exact hpw.2.2 x.ts (List.mem_map_of_mem _ hx) it.ts (by simp)
  have hu : ∀ x ∈ items, (elapsed now x.ts : Int) = elapsed_long now x.ts := by
    intro x hx
    exact to_uint_of_range _
      (elapsed_long_nonneg now x.ts hn (hnorm x hx) (hnow x hx)) (hwrap x hx)
  have hkeep : pre.filter (fun x => !stale c now x) = pre := by
    rw [List.filter_eq_self]
    intro x hx
    have hxi : x ∈ items := by rw [he]; exact List.mem_append_left _ hx
    have hmono := elapsed_long_antitone now it.ts x.ts (hnorm it hit) (hnorm x hxi)
      (hfront x hx)
    have h1 := hu x hxi
    have h2 := hu it hit
    have hns : ¬ (elapsed now x.ts > to_uint c.conf_burst_timeout) := by omega
    simp [stale, hns]
  rw [hres, hkeep]

/-- Witness of C5 as amended: the entry for identity 1 in the drop state behind a fresher entry
of identity 2, checked 5 ms after its last touch. -/
theorem drop_keeps_timestamp_and_position_witness :
    connlimit_check conf_default ⟨100, 5000000⟩ 1
      [{ key := 2, ts := ⟨100, 2000000⟩, count := 0 }, { key := 1, ts := ⟨100, 0⟩, count := 3 }] =
      (-1, [{ key := 2, ts := ⟨100, 2000000⟩, count := 0 },
            { key := 1, ts := ⟨100, 0⟩, count := 4 }]) ∧
    ∃ pre it post,
      [({ key := 2, ts := ⟨100, 2000000⟩, count := 0 } : item),
        { key := 1, ts := ⟨100, 0⟩, count := 3 }] = pre ++ it :: post ∧
      (∀ x ∈ pre, x.key ≠ 1) ∧ it.key = 1 ∧
      (connlimit_check conf_default ⟨100, 5000000⟩ 1
        [{ key := 2, ts := ⟨100, 2000000⟩, count := 0 },
         { key := 1, ts := ⟨100, 0⟩, count := 3 }]).2 =
        pre ++ { key := it.key, ts := it.ts, count := it.count + 1 } :: post :=
  ⟨by decide,
   drop_keeps_timestamp_and_position conf_default ⟨100, 5000000⟩ 1
    [{ key := 2, ts := ⟨100, 2000000⟩, count := 0 }, { key := 1, ts := ⟨100, 0⟩, count := 3 }]
    (by simp [recent_first, ts_le]) (by decide) (by decide) (by decide) (by decide)
    (by decide)⟩

end Connlimit

namespace Log

/-! ## Lemmas on the pools and the message heap -/

theorem mempool_alloc_ok (st : log_state) (h : allocs_ok st) :
    mempool_alloc st = (true, { st with allocs := st.allocs.tail }) := by
  obtain ⟨ts, ms, cm, sb, al, cs, df, ef⟩ := st
  cases al with
  | nil => rfl
  | cons b rest =>
    have hb : b = true := h b (List.mem_cons_self _ _)
    subst hb
    rfl

theorem allocs_ok_of_drop (st st1 : log_state) (n : Nat) (h : allocs_ok st)
    (h1 : st1.allocs = st.allocs.drop n) : allocs_ok st1 := by
  intro b hb
  rw [h1] at hb
  exact h b (List.mem_of_mem_drop hb)

theorem get_set_msg (st : log_state) (msg : Nat) (body : _log_msg_t)
    (h : msg < st.msgs.length) : get_msg (set_msg st msg body) msg = body := by
  simp [get_msg, set_msg, List.getD_eq_getElem?_getD, List.getElem?_set_self h]

/-- With every allocation succeeding, the loop of `add_msg` returns 0 and appends the chunks of
`chunk_list` to the message, using one allocation per chunk. -/
theorem add_chunks_ok (K : log_consts) (msg : Nat) (buf : List Char) (len chunk_cnt : Int)
    (n : Nat) (i : Int) (st : log_state) (ha : allocs_ok st) (hm : msg < st.msgs.length) :
    add_chunks K msg buf len chunk_cnt n i st =
      (0, { st with
        msgs := st.msgs.set msg
          { get_msg st msg with
            chunks := (get_msg st msg).chunks ++ chunk_list K buf len chunk_cnt n i },
        allocs := st.allocs.drop n }) := by
  induction n generalizing i st with
  | zero =>
    simp only [add_chunks, chunk_list, List.append_nil, List.drop_zero]
    have : st.msgs.set msg (get_msg st msg) = st.msgs := by
      simp only [get_msg, List.getD_eq_getElem?_getD]
      rw [List.getElem?_eq_getElem hm]
      simp only [Option.getD_some]
      apply List.ext_getElem?
      intro j
      by_cases hj : j = msg
      · subst hj
        rw [List.getElem?_set_self hm, List.getElem?_eq_getElem hm]
      · rw [List.getElem?_set_ne (Ne.symm hj)]
    rw [this]
  | succ n ih =>
    have ha1 : allocs_ok { st with allocs := st.allocs.tail } :=
      allocs_ok_of_drop st _ 1 ha (by simp)
    simp only [add_chunks, mempool_alloc_ok st ha, Bool.true_eq_false, if_false]
    rw [ih]
    · simp only [set_msg, get_msg, List.getD_eq_getElem?_getD, List.getElem?_set_self hm,
        Option.getD_some, List.set_set, chunk_list, List.append_assoc, List.singleton_append,
        List.drop_tail]
    · exact allocs_ok_of_drop st _ 1 ha (by simp [set_msg])
    · simpa [set_msg] using hm

/-! ## The chunks of a text -/

/-- From chunk `j` on, the chunks of `chunk_list` concatenate to the text from offset
`j * LOG_CHUNK_SIZE` on, when `c` chunks cover the text. -/
theorem chunk_list_flatten (K : log_consts) (buf : List Char) (c : Nat)
    (hcover : buf.length ≤ c * K.LOG_CHUNK_SIZE) (n j : Nat) (hj : j + n = c) :
    (chunk_list K buf buf.length c n j).flatten = buf.drop (j * K.LOG_CHUNK_SIZE) := by
  induction n generalizing j with
  | zero =>
    have : j = c := by omega
    subst this
    simp [chunk_list, List.drop_eq_nil_of_le hcover]
  | succ n ih =>
    have hidx : ((j : Int) * (K.LOG_CHUNK_SIZE : Int)).toNat = j * K.LOG_CHUNK_SIZE := by
      rw [← Nat.cast_mul]; exact Int.toNat_ofNat _
    have hnext : ((j : Int) + 1) = ((j + 1 : Nat) : Int) := by push_cast; rfl
    simp only [chunk_list, List.flatten_cons, hidx]
    rw [hnext, ih (j + 1) (by omega)]
    by_cases hlast : (j : Int) = (c : Int) - 1
    · have hc : c = j + 1 := by omega
      have hlen : ((buf.length : Int) - (j : Int) * (K.LOG_CHUNK_SIZE : Int)).toNat =
          buf.length - j * K.LOG_CHUNK_SIZE := by
        rw [← Nat.cast_mul]; omega
      have ht : (buf.drop (j * K.LOG_CHUNK_SIZE)).take (buf.length - j * K.LOG_CHUNK_SIZE) =
          buf.drop (j * K.LOG_CHUNK_SIZE) := List.take_of_length_le (by simp)
      have hd : buf.drop ((j + 1) * K.LOG_CHUNK_SIZE) = [] :=
        List.drop_eq_nil_of_le (by rw [hc] at hcover; exact hcover)
      rw [if_pos hlast, hlen, ht, hd, List.append_nil]
    · rw [if_neg hlast, Int.toNat_ofNat]
      have : (j + 1) * K.LOG_CHUNK_SIZE = j * K.LOG_CHUNK_SIZE + K.LOG_CHUNK_SIZE := by ring
      rw [this, ← List.drop_drop, List.take_append_drop]

/-- The number of chunks that `add_msg` computes for a non-empty text covers the text. -/
theorem chunk_cnt_cover (K : log_consts) (buf : List Char) (hcs : 0 < K.LOG_CHUNK_SIZE) :
    ∃ c : Nat, Int.tdiv ((buf.length : Int) - 1) K.LOG_CHUNK_SIZE + 1 = (c : Int) ∧
      buf.length ≤ c * K.LOG_CHUNK_SIZE := by
  by_cases h0 : buf.length = 0
  · by_cases h1 : K.LOG_CHUNK_SIZE = 1
    · refine ⟨0, ?_, by omega⟩
      rw [h0, h1]
      decide
    · refine ⟨1, ?_, by omega⟩
      rw [h0]
      have : Int.tdiv ((0 : Nat) - 1 : Int) (K.LOG_CHUNK_SIZE : Int) = 0 := by
        have e : ((0 : Nat) - 1 : Int) = -1 := by norm_num
        rw [e, Int.neg_tdiv]
        have : Int.tdiv 1 (K.LOG_CHUNK_SIZE : Int) = 0 := by
          rw [Int.tdiv_eq_ediv (by norm_num) (by omega)]
          exact Int.ediv_eq_zero_of_lt (by norm_num) (by omega)
        rw [this]; rfl
      rw [this]; rfl
  · refine ⟨(buf.length - 1) / K.LOG_CHUNK_SIZE + 1, ?_, ?_⟩
    · have e : ((buf.length : Int) - 1) = ((buf.length - 1 : Nat) : Int) := by omega
      rw [e]
      push_cast
      rfl
    · have := Nat.div_add_mod (buf.length - 1) K.LOG_CHUNK_SIZE
      have hm := Nat.mod_lt (buf.length - 1) hcs
      have : ((buf.length - 1) / K.LOG_CHUNK_SIZE + 1) * K.LOG_CHUNK_SIZE =
          K.LOG_CHUNK_SIZE * ((buf.length - 1) / K.LOG_CHUNK_SIZE) + K.LOG_CHUNK_SIZE := by ring
      omega

/-- The chunks of a text concatenate to the text. -/
theorem text_chunks_flatten (K : log_consts) (buf : List Char) (hcs : 0 < K.LOG_CHUNK_SIZE) :
    (text_chunks K buf).flatten = buf := by
  obtain ⟨c, hc, hcover⟩ := chunk_cnt_cover K buf hcs
  unfold text_chunks
  rw [hc, Int.toNat_ofNat]
  have := chunk_list_flatten K buf c hcover c 0 (by omega)
  simpa using this

/-- With every allocation succeeding, `add_msg` returns 0 and appends the chunks of the text. -/
theorem add_msg_ok (K : log_consts) (msg : Nat) (buf : List Char) (st : log_state)
    (ha : allocs_ok st) (hm : msg < st.msgs.length) :
    add_msg K msg buf st =
      (0, { st with
        msgs := st.msgs.set msg
          { get_msg st msg with chunks := (get_msg st msg).chunks ++ text_chunks K buf },
        allocs := st.allocs.drop
          (Int.tdiv ((buf.length : Int) - 1) K.LOG_CHUNK_SIZE + 1).toNat }) := by
  unfold add_msg text_chunks
  exact add_chunks_ok K msg buf _ _ _ 0 st ha hm

/-! ## Cloning and fan-out -/

theorem set_get_msg (st : log_state) (msg : Nat) (hm : msg < st.msgs.length) :
    st.msgs.set msg (get_msg st msg) = st.msgs := by
  simp only [get_msg, List.getD_eq_getElem?_getD]
  rw [List.getElem?_eq_getElem hm]
  simp only [Option.getD_some]
  apply List.ext_getElem?
  intro j
  by_cases hj : j = msg
  · subst hj
    rw [List.getElem?_set_self hm, List.getElem?_eq_getElem hm]
  · rw [List.getElem?_set_ne (Ne.symm hj)]

theorem clone_msg_ok (msg : Nat) (st : log_state) (ha : allocs_ok st) :
    clone_msg msg st =
      (some { hdr_len := 0, lpd := msg, timestamp := (get_msg st msg).timestamp,
              level := (get_msg st msg).level },
        { st with
          msgs := st.msgs.set msg
            { get_msg st msg with refs := ((get_msg st msg).refs + 1) % 4294967296 },
          allocs := st.allocs.drop 2 }) := by
  have ha1 : allocs_ok { st with allocs := st.allocs.tail } :=
    allocs_ok_of_drop st _ 1 ha (by simp)
  unfold clone_msg
  have htt : st.allocs.tail.tail = st.allocs.drop 2 := by
    cases st.allocs with
    | nil => rfl
    | cons a l => cases l <;> rfl
  simp only [mempool_alloc_ok st ha, mempool_alloc_ok _ ha1, Bool.true_eq_false, if_false,
    set_msg, get_msg, htt]

/-- With every allocation succeeding, the loop over the targets calls each target once, in list
order, with a clone of the message, and adds one reference per target. -/
theorem fan_out_ok (msg : Nat) (ppp : Option ppp_t) (ts : List Nat) (st : log_state)
    (ha : allocs_ok st) (hm : msg < st.msgs.length)
    (hr : (get_msg st msg).refs < 4294967296) :
    fan_out msg ppp ts st =
      { st with
        calls := st.calls ++ ts.map (fun t =>
          { target := t,
            m := { hdr_len := 0, lpd := msg, timestamp := (get_msg st msg).timestamp,
                   level := (get_msg st msg).level },
            chunks := (get_msg st msg).chunks, ppp := ppp }),
        msgs := st.msgs.set msg
          { get_msg st msg with refs := ((get_msg st msg).refs + ts.length) % 4294967296 },
        allocs := st.allocs.drop (2 * ts.length) } := by
  induction ts generalizing st with
  | nil =>
    simp only [fan_out, List.map_nil, List.append_nil, List.length_nil, Nat.add_zero,
      Nat.mul_zero, List.drop_zero, Nat.mod_eq_of_lt hr]
    rw [set_get_msg st msg hm]
  | cons t ts ih =>
    simp only [fan_out, clone_msg_ok msg st ha]
    rw [ih]
    · simp only [get_msg, List.getD_eq_getElem?_getD, List.getElem?_set_self hm,
        Option.getD_some, List.set_set, List.map_cons, List.length_cons, List.drop_drop,
        List.append_assoc, List.singleton_append, Nat.mod_add_mod]
      have e1 : ∀ r : Nat, r + 1 + ts.length = r + (ts.length + 1) := fun r => by omega
      have e2 : 2 + 2 * ts.length = 2 * (ts.length + 1) := by omega
      rw [e1, e2]
    · exact allocs_ok_of_drop st _ 2 ha rfl
    · simpa using hm
    · simp only [get_msg, List.getD_eq_getElem?_getD, List.getElem?_set_self hm,
        Option.getD_some]
      exact Nat.mod_lt _ (by norm_num)

/-! ## `do_log` -/

theorem take_max (K : log_consts) (text : List Char) (h : text.length < K.LOG_MAX_SIZE) :
    text.take (K.LOG_MAX_SIZE - 1) = text :=
  List.take_of_length_le (by omega)

/-- For a non-empty text that fits an `int`, line 88 reads the last character of the text. -/
theorem get_eol_index (buf : List Char) (hne : buf ≠ []) (hlen : buf.length < 2147483648) :
    buf.get? (eol_index buf) = buf.getLast? := by
  have hpos : 0 < buf.length := List.length_pos.mpr hne
  have : eol_index buf = buf.length - 1 := by
    unfold eol_index
    rw [if_neg (by omega)]
  rw [this, List.get?_eq_getElem?, List.getLast?_eq_getElem?]

theorem log_free_msg_frame (msg : Nat) (st : log_state) :
    (_log_free_msg msg st).calls = st.calls ∧ (_log_free_msg msg st).targets = st.targets ∧
    (_log_free_msg msg st).msgs.length = st.msgs.length := by
  unfold _log_free_msg set_msg
  dsimp only
  split_ifs <;> exact ⟨rfl, rfl, List.length_set _ _ _⟩

theorem pending_msg_none (level : Int) (tv : timeval) (st : log_state)
    (hcur : st.cur_msg = none) (ha : allocs_ok st) :
    pending_msg level tv st =
      (some st.msgs.length,
        { st with
          allocs := st.allocs.tail,
          msgs := st.msgs ++
            [{ level := level, timestamp := tv, chunks := [], refs := 1, frees := 0 }],
          cur_msg := some st.msgs.length }) := by
  unfold pending_msg
  rw [hcur]
  simp only [mempool_alloc_ok st ha, Bool.true_eq_false, if_false]

theorem pending_msg_some (level : Int) (tv : timeval) (st : log_state) (msg : Nat)
    (hcur : st.cur_msg = some msg) : pending_msg level tv st = (some msg, st) := by
  unfold pending_msg
  rw [hcur]

/-- A call of `do_log` on a thread without pending message, with a non-empty text that does not
end in a newline: the text becomes the chunks of a new pending message and no target is
called. -/
theorem do_log_partial (K : log_consts) (hK : consts_ok K) (level : Int) (text : List Char)
    (ppp : Option ppp_t) (tv : timeval) (st : log_state)
    (hcur : st.cur_msg = none) (ha : allocs_ok st)
    (hlen : text.length < K.LOG_MAX_SIZE) (hne : text ≠ [])
    (hnl : text.getLast? ≠ some '\n') :
    do_log K level text ppp tv st =
      some { st with
        stat_buf := text,
        msgs := st.msgs ++
          [{ level := level, timestamp := tv, chunks := text_chunks K text, refs := 1,
             frees := 0 }],
        cur_msg := some st.msgs.length,
        allocs := (st.allocs.drop 1).drop
          (Int.tdiv ((text.length : Int) - 1) K.LOG_CHUNK_SIZE + 1).toNat } := by
  have ha0 : allocs_ok { st with stat_buf := text } := allocs_ok_of_drop st _ 0 ha rfl
  have hp : pending_msg level tv { st with stat_buf := text } =
      (some st.msgs.length,
        { st with
          stat_buf := text,
          allocs := st.allocs.tail,
          msgs := st.msgs ++
            [{ level := level, timestamp := tv, chunks := [], refs := 1, frees := 0 }],
          cur_msg := some st.msgs.length }) :=
    pending_msg_none level tv _ hcur ha0
  have ha1 : allocs_ok { st with
      stat_buf := text,
      allocs := st.allocs.tail,
      msgs := st.msgs ++
        [{ level := level, timestamp := tv, chunks := [], refs := 1, frees := 0 }],
      cur_msg := some st.msgs.length } := allocs_ok_of_drop st _ 1 ha (by simp)
  have hch := get_eol_index text hne (by unfold consts_ok at hK; omega)
  obtain ⟨ch, hlast⟩ : ∃ ch, text.getLast? = some ch := by
    cases h : text.getLast? with
    | none => exact absurd (List.getLast?_eq_none_iff.mp h) hne
    | some ch => exact ⟨ch, rfl⟩
  have hchne : ch ≠ '\n' := by
    intro h; apply hnl; rw [hlast, h]
  unfold do_log
  simp only [take_max K text hlen, hp]
  rw [add_msg_ok K _ text _ ha1 (by simp)]
  simp only [ne_eq, not_true_eq_false, if_false, hch, hlast, hchne, not_false_eq_true, if_true,
    get_msg, List.getD_eq_getElem?_getD, List.getElem?_concat_length, Option.getD_some,
    List.nil_append, List.drop_tail]
  congr 2
  · rw [List.set_append_right _ _ (le_refl _)]
    simp
  · rw [List.drop_drop, Nat.add_comm]

/-- A call of `do_log` on a thread with a pending message, with a text that ends in a newline
and with every allocation succeeding: the text is appended, every registered target is called
once, in registration order, with a clone of the pending message, and the pending slot is
cleared. No message body is allocated. -/
theorem do_log_complete (K : log_consts) (hK : consts_ok K) (level : Int) (text : List Char)
    (ppp : Option ppp_t) (tv : timeval) (st : log_state) (msg : Nat)
    (hcur : st.cur_msg = some msg) (hm : msg < st.msgs.length)
    (hr : (get_msg st msg).refs < 4294967296) (ha : allocs_ok st)
    (hlen : text.length < K.LOG_MAX_SIZE) (hnl : text.getLast? = some '\n') :
    ∃ stB, do_log K level text ppp tv st = some stB ∧ stB.cur_msg = none ∧
      stB.targets = st.targets ∧ stB.msgs.length = st.msgs.length ∧
      stB.calls = st.calls ++ st.targets.map (fun t =>
        { target := t,
          m := { hdr_len := 0, lpd := msg, timestamp := (get_msg st msg).timestamp,
                 level := (get_msg st msg).level },
          chunks := (get_msg st msg).chunks ++ text_chunks K text, ppp := ppp }) := by
  have hne : text ≠ [] := by
    intro h; rw [h] at hnl; exact absurd hnl (by simp)
  have ha0 : allocs_ok { st with stat_buf := text } := allocs_ok_of_drop st _ 0 ha rfl
  have hp : pending_msg level tv { st with stat_buf := text } =
      (some msg, { st with stat_buf := text }) :=
    pending_msg_some level tv _ msg hcur
  have hch := get_eol_index text hne (by unfold consts_ok at hK; omega)
  have hadd : add_msg K msg text { st with stat_buf := text } = (0, after_add K msg text st) :=
    add_msg_ok K msg text _ ha0 hm
  have haa : allocs_ok (after_add K msg text st) := allocs_ok_of_drop st _ _ ha rfl
  have hbody : get_msg (after_add K msg text st) msg =
      { get_msg st msg with chunks := (get_msg st msg).chunks ++ text_chunks K text } := by
    simp [after_add, get_msg, List.getD_eq_getElem?_getD, List.getElem?_set_self hm]
  have hlen2 : msg < (after_add K msg text st).msgs.length := by simpa [after_add] using hm
  by_cases hdbg : (after_add K msg text st).debug_file.isSome = true
  · have haw : allocs_ok (write_msg msg ppp (after_add K msg text st)) :=
      allocs_ok_of_drop (after_add K msg text st) _ 0 haa rfl
    have hbw : get_msg (write_msg msg ppp (after_add K msg text st)) msg =
        get_msg (after_add K msg text st) msg := rfl
    have hf := fan_out_ok msg ppp st.targets (write_msg msg ppp (after_add K msg text st)) haw
      hlen2 (by rw [hbw, hbody]; exact hr)
    have hdo : do_log K level text ppp tv st = some
        { _log_free_msg msg
            (fan_out msg ppp st.targets (write_msg msg ppp (after_add K msg text st))) with
          cur_msg := none } := by
      unfold do_log
      simp only [take_max K text hlen, hp, hadd, ne_eq, not_true_eq_false, if_false]
      have hsb : (after_add K msg text st).stat_buf = text := rfl
      simp only [hsb, hch, hnl, hdbg, if_true]
      rfl
    refine ⟨_, hdo, rfl, ?_, ?_, ?_⟩
    · rw [(log_free_msg_frame msg _).2.1, hf]
      rfl
    · rw [(log_free_msg_frame msg _).2.2, hf]
      simp [write_msg, after_add]
    · rw [(log_free_msg_frame msg _).1, hf, hbw, hbody]
      rfl
  · have hf := fan_out_ok msg ppp st.targets (after_add K msg text st) haa
      hlen2 (by rw [hbody]; exact hr)
    have hdo : do_log K level text ppp tv st = some
        { _log_free_msg msg (fan_out msg ppp st.targets (after_add K msg text st)) with
          cur_msg := none } := by
      unfold do_log
      simp only [take_max K text hlen, hp, hadd, ne_eq, not_true_eq_false, if_false]
      have hsb : (after_add K msg text st).stat_buf = text := rfl
      simp only [hsb, hch, hnl, hdbg]
      rfl
    refine ⟨_, hdo, rfl, ?_, ?_, ?_⟩
    · rw [(log_free_msg_frame msg _).2.1, hf]
      rfl
    · rw [(log_free_msg_frame msg _).2.2, hf]
      simp [after_add]
    · rw [(log_free_msg_frame msg _).1, hf, hbody]
      rfl

/-! ## Releasing references -/

/-- The message body that a release refers to. -/
theorem do_release_eq (st : log_state) (msg : Nat) (r : release)
    (h : r = release.own msg ∨ ∃ m : log_msg_t, m.lpd = msg ∧ r = release.clone m) :
    do_release st r = _log_free_msg msg st := by
  rcases h with rfl | ⟨m, hm, rfl⟩
  · rfl
  · simp [do_release, log_free_msg, hm]

/-- A run of releases of one body that holds `R` references: after `l.length ≤ R` releases the
count is `R - l.length`; the storage is freed by the release that takes the count to zero and
by no other. -/
theorem release_run (msg : Nat) (l : List release) (st : log_state) (R : Nat)
    (hl : ∀ r ∈ l, r = release.own msg ∨ ∃ m : log_msg_t, m.lpd = msg ∧ r = release.clone m)
    (hm : msg < st.msgs.length) (hR : (get_msg st msg).refs = R) (hR1 : 1 ≤ R)
    (hRM : R < 4294967296) (hfr : (get_msg st msg).frees = 0) (hlen : l.length ≤ R) :
    (get_msg (l.foldl do_release st) msg).refs = R - l.length ∧
    (get_msg (l.foldl do_release st) msg).frees = (if l.length = R then 1 else 0) ∧
    (get_msg (l.foldl do_release st) msg).chunks =
      (if l.length = R then [] else (get_msg st msg).chunks) := by
  induction l generalizing st R with
  | nil =>
    have : ¬ (0 = R) := by omega
    simp [hR, hfr, this]
  | cons r rest ih =>
    have hrest : ∀ x ∈ rest,
        x = release.own msg ∨ ∃ m : log_msg_t, m.lpd = msg ∧ x = release.clone m :=
      fun x hx => hl x (List.mem_cons_of_mem _ hx)
    have hstep := do_release_eq st msg r (hl r (List.mem_cons_self _ _))
    have hdec : (if (get_msg st msg).refs = 0 then 4294967295 else (get_msg st msg).refs - 1) =
        R - 1 := by
      rw [hR, if_neg (by omega)]
    simp only [List.foldl_cons, hstep, List.length_cons]
    simp only [List.length_cons] at hlen
    by_cases hz : R - 1 = 0
    · have hnil : rest = [] := List.length_eq_zero.mp (by omega)
      subst hnil
      have hfree : _log_free_msg msg st = set_msg st msg
          { get_msg st msg with refs := 0, chunks := [], frees := (get_msg st msg).frees + 1 } := by
        unfold _log_free_msg
        simp only [hdec, hz, ne_eq, not_true_eq_false, if_false]
      have hR' : 0 + 1 = R := by omega
      simp only [List.foldl_nil, hfree, get_set_msg st msg _ hm, List.length_nil, hR', if_true,
        hfr]
      exact ⟨by omega, by omega, trivial⟩
    · have hkeep : _log_free_msg msg st = set_msg st msg
          { get_msg st msg with refs := R - 1 } := by
        unfold _log_free_msg
        simp only [hdec, ne_eq, hz, not_false_eq_true, if_true]
      rw [hkeep]
      have hm' : msg < (set_msg st msg { get_msg st msg with refs := R - 1 }).msgs.length := by
        simpa [set_msg] using hm
      have hb := get_set_msg st msg { get_msg st msg with refs := R - 1 } hm
      obtain ⟨i1, i2, i3⟩ := ih (set_msg st msg { get_msg st msg with refs := R - 1 }) (R - 1)
        hrest hm' (by rw [hb]) (by omega) (by omega) (by rw [hb]; exact hfr) (by omega)
      have hiff : (rest.length = R - 1) ↔ (rest.length + 1 = R) := by omega
      refine ⟨by rw [i1]; omega, ?_, ?_⟩
      · rw [i2]; simp only [hiff]
      · rw [i3, hb]; simp only [hiff]

/-! ## Claims on the log pipeline -/

/-- C10: a pending message (reference count 1, not freed) is fanned out to the `N` registered
targets with every clone allocated. Then the reference count is `N + 1`, and for every order `rs`
of the `N + 1` releases (the one of `do_log` and one `log_free_msg` per clone) the count after
`j` releases is `N + 1 - j`: it is zero after the last release and not before, and the chunks
and the body are freed exactly once, by the last release. -/
theorem refcount_zero_exactly_once (msg : Nat) (ppp : Option ppp_t) (st st1 : log_state)
    (hm : msg < st.msgs.length) (hrefs : (get_msg st msg).refs = 1)
    (hfrees : (get_msg st msg).frees = 0) (ha : allocs_ok st)
    (hN : st.targets.length + 1 < 4294967296)
    (hst1 : st1 = fan_out msg ppp st.targets st) :
    (get_msg st1 msg).refs = st.targets.length + 1 ∧
    (st1.calls.drop st.calls.length).length = st.targets.length ∧
    ∀ rs : List release,
      rs.Perm (release.own msg ::
        (st1.calls.drop st.calls.length).map (fun c => release.clone c.m)) →
      ∀ j, j ≤ st.targets.length + 1 →
        (get_msg ((rs.take j).foldl do_release st1) msg).refs = st.targets.length + 1 - j ∧
        (get_msg ((rs.take j).foldl do_release st1) msg).frees =
          (if j = st.targets.length + 1 then 1 else 0) ∧
        (get_msg ((rs.take j).foldl do_release st1) msg).chunks =
          (if j = st.targets.length + 1 then [] else (get_msg st msg).chunks) := by
  have hf := fan_out_ok msg ppp st.targets st ha hm (by rw [hrefs]; norm_num)
  rw [← hst1] at hf
  have hmod : (1 + st.targets.length) % 4294967296 = st.targets.length + 1 := by
    rw [Nat.mod_eq_of_lt (by omega)]; omega
  have hm1 : msg < st1.msgs.length := by rw [hf]; simpa using hm
  have hbody : get_msg st1 msg =
      { get_msg st msg with refs := st.targets.length + 1 } := by
    have e : st1.msgs = st.msgs.set msg
        { get_msg st msg with
          refs := ((get_msg st msg).refs + st.targets.length) % 4294967296 } := by
      rw [hf]
    have h1 : get_msg st1 msg = get_msg (set_msg st msg
        { get_msg st msg with
          refs := ((get_msg st msg).refs + st.targets.length) % 4294967296 }) msg := by
      show st1.msgs.getD _ _ = _
      rw [e]
      rfl
    rw [h1, get_set_msg st msg _ hm, hrefs, hmod]
  have hcalls : st1.calls.drop st.calls.length = st.targets.map (fun t =>
      ({ target := t,
         m := { hdr_len := 0, lpd := msg, timestamp := (get_msg st msg).timestamp,
                level := (get_msg st msg).level },
         chunks := (get_msg st msg).chunks, ppp := ppp } : sink_call)) := by
    rw [hf]
    simp
  refine ⟨by rw [hbody], by rw [hcalls, List.length_map], ?_⟩
  intro rs hperm j hj
  have hrslen : rs.length = st.targets.length + 1 := by
    rw [hperm.length_eq, hcalls]; simp
  have hall : ∀ r ∈ rs.take j,
      r = release.own msg ∨ ∃ m : log_msg_t, m.lpd = msg ∧ r = release.clone m := by
    intro r hr
    have hmem := (hperm.mem_iff).mp (List.mem_of_mem_take hr)
    rcases List.mem_cons.mp hmem with h | h
    · exact Or.inl h
    · rw [hcalls, List.map_map] at h
      obtain ⟨t, _, ht⟩ := List.mem_map.mp h
      exact Or.inr ⟨_, rfl, ht.symm⟩
  have htake : (rs.take j).length = j := by
    rw [List.length_take, hrslen]; omega
  have hrun := release_run msg (rs.take j) st1 (st.targets.length + 1) hall hm1
    (by rw [hbody]) (by omega) hN (by rw [hbody]; exact hfrees) (by omega)
  rw [htake, hbody] at hrun
  exact hrun

/-- Witness of C10: two targets; one clone is released before the reference of `do_log` and one
after it. The count goes 3, 2, 1, 0 and the storage is freed by the third release only. -/
theorem refcount_zero_exactly_once_witness :
    (get_msg (fan_out 0 none [10, 20]
      { log_init [10, 20] with
        msgs := [{ level := 3, timestamp := ⟨1, 0⟩, chunks := [['h', 'i', '\n']], refs := 1,
                   frees := 0 }],
        cur_msg := some 0 }) 0).refs = 2 + 1 ∧
    (get_msg ((List.take 2
      [release.clone { hdr_len := 0, lpd := 0, timestamp := ⟨1, 0⟩, level := 3 },
       release.own 0,
       release.clone { hdr_len := 0, lpd := 0, timestamp := ⟨1, 0⟩, level := 3 }]).foldl
      do_release (fan_out 0 none [10, 20]
        { log_init [10, 20] with
          msgs := [{ level := 3, timestamp := ⟨1, 0⟩, chunks := [['h', 'i', '\n']],
                     refs := 1, frees := 0 }],
          cur_msg := some 0 })) 0).refs = 2 + 1 - 2 ∧
    (get_msg ((List.take 2
      [release.clone { hdr_len := 0, lpd := 0, timestamp := ⟨1, 0⟩, level := 3 },
       release.own 0,
       release.clone { hdr_len := 0, lpd := 0, timestamp := ⟨1, 0⟩, level := 3 }]).foldl
      do_release (fan_out 0 none [10, 20]
        { log_init [10, 20] with
          msgs := [{ level := 3, timestamp := ⟨1, 0⟩, chunks := [['h', 'i', '\n']],
                     refs := 1, frees := 0 }],
          cur_msg := some 0 })) 0).frees = (if 2 = 2 + 1 then 1 else 0) ∧
    (get_msg ((List.take 3
      [release.clone { hdr_len := 0, lpd := 0, timestamp := ⟨1, 0⟩, level := 3 },
       release.own 0,
       release.clone { hdr_len := 0, lpd := 0, timestamp := ⟨1, 0⟩, level := 3 }]).foldl
      do_release (fan_out 0 none [10, 20]
        { log_init [10, 20] with
          msgs := [{ level := 3, timestamp := ⟨1, 0⟩, chunks := [['h', 'i', '\n']],
                     refs := 1, frees := 0 }],
          cur_msg := some 0 })) 0).frees = (if 3 = 2 + 1 then 1 else 0) := by
  have h := refcount_zero_exactly_once 0 none
    { log_init [10, 20] with
      msgs := [{ level := 3, timestamp := ⟨1, 0⟩, chunks := [['h', 'i', '\n']], refs := 1,
                 frees := 0 }],
      cur_msg := some 0 } _ (by decide) (by decide) (by decide) (by decide) (by decide) rfl
  exact ⟨h.1, (h.2.2 _ (by decide) 2 (by decide)).1, (h.2.2 _ (by decide) 2 (by decide)).2.1,
    (h.2.2 _ (by decide) 3 (by decide)).2.1⟩

/-- C20, the code at a failing input: for the empty text `strlen(stat_buf) - 1` is
`2 ^ 64 - 1`, which is not an index of the text in `stat_buf`; `add_msg` has appended one
empty chunk and line 88 reads outside the buffer, so the call has no defined result. -/
theorem do_log_empty_text_reads_out_of_range :
    eol_index [] = 18446744073709551615 ∧
    ([] : List Char).get? (eol_index []) = none ∧
    (add_msg ⟨4096, 128⟩ 0 [] (pending_msg 3 ⟨1, 0⟩ (log_init [10])).2).1 = 0 ∧
    do_log ⟨4096, 128⟩ 3 [] none ⟨1, 0⟩ (log_init [10]) = none := by
  refine ⟨by decide, by decide, by decide, by decide⟩

/-! ## Allocation outcomes one by one -/

theorem getD_tail (l : List Bool) (i : Nat) : l.tail.getD i true = l.getD (i + 1) true := by
  cases l with
  | nil => rfl
  | cons b rest => rfl

theorem getD_drop (l : List Bool) (n i : Nat) : (l.drop n).getD i true = l.getD (n + i) true := by
  induction n generalizing l with
  | zero => simp
  | succ n ih =>
    cases l with
    | nil => simp
    | cons b rest =>
      have : n + 1 + i = (n + i) + 1 := by omega
      rw [List.drop_succ_cons, ih, this]
      rfl

theorem next_allocs_ok_of_ok (n : Nat) (st : log_state) (h : allocs_ok st) :
    next_allocs_ok n st := by
  intro i _
  rw [List.getD_eq_getElem?_getD]
  cases hg : st.allocs[i]? with
  | none => rfl
  | some b => exact h b (List.getElem?_mem hg)

theorem mempool_alloc_next (n : Nat) (st : log_state) (h : next_allocs_ok (n + 1) st) :
    mempool_alloc st = (true, { st with allocs := st.allocs.tail }) := by
  obtain ⟨ts, ms, cm, sb, al, cs, df, ef⟩ := st
  cases al with
  | nil => rfl
  | cons b rest =>
    have hb : b = true := h 0 (by omega)
    subst hb
    rfl

theorem mempool_alloc_fail (st : log_state) (h : alloc_fails_at 0 st) :
    mempool_alloc st = (false, { st with allocs := st.allocs.tail }) := by
  obtain ⟨ts, ms, cm, sb, al, cs, df, ef⟩ := st
  cases al with
  | nil => exact absurd h (by simp [alloc_fails_at])
  | cons b rest =>
    have hb : b = false := h
    subst hb
    rfl

theorem next_allocs_ok_drop (n m : Nat) (st st1 : log_state) (h : next_allocs_ok (m + n) st)
    (h1 : st1.allocs = st.allocs.drop m) : next_allocs_ok n st1 := by
  intro i hi
  rw [h1, getD_drop]
  exact h (m + i) (by omega)

theorem alloc_fails_at_drop (n m : Nat) (st st1 : log_state) (h : alloc_fails_at (m + n) st)
    (h1 : st1.allocs = st.allocs.drop m) : alloc_fails_at n st1 := by
  unfold alloc_fails_at at *
  rw [h1, getD_drop]
  exact h

/-- When the next `n` allocations succeed, the loop of `add_msg` returns 0 and appends the
chunks of `chunk_list`. -/
theorem add_chunks_next (K : log_consts) (msg : Nat) (buf : List Char) (len chunk_cnt : Int)
    (n : Nat) (i : Int) (st : log_state) (ha : next_allocs_ok n st)
    (hm : msg < st.msgs.length) :
    add_chunks K msg buf len chunk_cnt n i st =
      (0, { st with
        msgs := st.msgs.set msg
          { get_msg st msg with
            chunks := (get_msg st msg).chunks ++ chunk_list K buf len chunk_cnt n i },
        allocs := st.allocs.drop n }) := by
  induction n generalizing i st with
  | zero =>
    simp only [add_chunks, chunk_list, List.append_nil, List.drop_zero]
    rw [set_get_msg st msg hm]
  | succ n ih =>
    simp only [add_chunks, mempool_alloc_next n st ha, Bool.true_eq_false, if_false]
    rw [ih]
    · simp only [set_msg, get_msg, List.getD_eq_getElem?_getD, List.getElem?_set_self hm,
        Option.getD_some, List.set_set, chunk_list, List.append_assoc, List.singleton_append,
        List.drop_tail]
    · exact next_allocs_ok_drop n 1 st _ (by rw [Nat.add_comm]; exact ha) (by simp [set_msg])
    · simpa [set_msg] using hm

/-- When the loop of `add_msg` returns 0, every one of its allocations has succeeded. -/
theorem add_chunks_zero (K : log_consts) (msg : Nat) (buf : List Char) (len chunk_cnt : Int)
    (n : Nat) (i : Int) (st : log_state)
    (h : (add_chunks K msg buf len chunk_cnt n i st).1 = 0) : next_allocs_ok n st := by
  induction n generalizing i st with
  | zero => intro j hj; omega
  | succ n ih =>
    by_cases hf : alloc_fails_at 0 st
    · simp [add_chunks, mempool_alloc_fail st hf] at h
    · have h0 : st.allocs.getD 0 true = true := by
        unfold alloc_fails_at at hf
        simpa using hf
      have hn1 : next_allocs_ok 1 st := by
        intro j hj
        have : j = 0 := by omega
        subst this
        exact h0
      simp only [add_chunks, mempool_alloc_next 0 st hn1, Bool.true_eq_false, if_false] at h
      have hrest := ih _ _ h
      intro j hj
      cases j with
      | zero => exact h0
      | succ j =>
        have := hrest j (by omega)
        simp only [set_msg] at this
        rw [getD_tail] at this
        exact this

/-! ## C18: the chunks that `add_msg` appends -/

/-- The number and the lengths of the chunks of `chunk_list` when `c` chunks cover a text of
which `c - 1` chunks are full. -/
theorem chunk_list_lengths (K : log_consts) (buf : List Char) (c : Nat)
    (hcover : buf.length ≤ c * K.LOG_CHUNK_SIZE)
    (hlow : (c - 1) * K.LOG_CHUNK_SIZE ≤ buf.length) (n j : Nat) (hj : j + n = c) :
    (chunk_list K buf buf.length c n j).length = n ∧
    (∀ ch ∈ chunk_list K buf buf.length c n j, ch.length ≤ K.LOG_CHUNK_SIZE) ∧
    (∀ ch ∈ (chunk_list K buf buf.length c n j).dropLast, ch.length = K.LOG_CHUNK_SIZE) := by
  induction n generalizing j with
  | zero => simp [chunk_list]
  | succ n ih =>
    have hidx : ((j : Int) * (K.LOG_CHUNK_SIZE : Int)).toNat = j * K.LOG_CHUNK_SIZE := by
      rw [← Nat.cast_mul]; exact Int.toNat_ofNat _
    have hnext : ((j : Int) + 1) = ((j + 1 : Nat) : Int) := by push_cast; rfl
    obtain ⟨i1, i2, i3⟩ := ih (j + 1) (by omega)
    rw [← hnext] at i1 i2 i3
    have hmul : (j + 1) * K.LOG_CHUNK_SIZE = j * K.LOG_CHUNK_SIZE + K.LOG_CHUNK_SIZE := by ring
    simp only [chunk_list, hidx]
    by_cases hlast : (j : Int) = (c : Int) - 1
    · have hc : c = j + 1 := by omega
      have hn : n = 0 := by omega
      subst hn
      have hlen : ((buf.length : Int) - (j : Int) * (K.LOG_CHUNK_SIZE : Int)).toNat =
          buf.length - j * K.LOG_CHUNK_SIZE := by
        rw [← Nat.cast_mul]; omega
      rw [if_pos hlast, hlen]
      simp only [chunk_list, List.length_singleton, List.mem_singleton, List.dropLast_single,
        List.not_mem_nil, false_implies, implies_true, and_true, true_and]
      intro ch hch
      subst hch
      rw [List.length_take, List.length_drop]
      rw [hc, hmul] at hcover
      omega
    · have hjc : j + 1 < c := by omega
      have hfull : (j + 1) * K.LOG_CHUNK_SIZE ≤ buf.length := by
        have : (j + 1) * K.LOG_CHUNK_SIZE ≤ (c - 1) * K.LOG_CHUNK_SIZE :=
          Nat.mul_le_mul_right _ (by omega)
        omega
      have hx : ((buf.drop (j * K.LOG_CHUNK_SIZE)).take K.LOG_CHUNK_SIZE).length =
          K.LOG_CHUNK_SIZE := by
        rw [List.length_take, List.length_drop]
        rw [hmul] at hfull
        omega
      have hne : chunk_list K buf buf.length c n ((j : Int) + 1) ≠ [] := by
        intro h0
        rw [h0] at i1
        simp only [List.length_nil] at i1
        omega
      rw [if_neg hlast, Int.toNat_ofNat, List.dropLast_cons_of_ne_nil hne]
      refine ⟨by simp [i1], ?_, ?_⟩
      · intro ch hch
        rcases List.mem_cons.mp hch with rfl | hch
        · omega
        · exact i2 ch hch
      · intro ch hch
        rcases List.mem_cons.mp hch with rfl | hch
        · exact hx
        · exact i3 ch hch

/-- The count `(len - 1) / LOG_CHUNK_SIZE + 1` of `add_msg` for a chunk size above 1. -/
theorem chunk_cnt_bounds (K : log_consts) (buf : List Char) (hcs : 1 < K.LOG_CHUNK_SIZE) :
    ∃ c : Nat, Int.tdiv ((buf.length : Int) - 1) K.LOG_CHUNK_SIZE + 1 = (c : Int) ∧
      buf.length ≤ c * K.LOG_CHUNK_SIZE ∧ (c - 1) * K.LOG_CHUNK_SIZE ≤ buf.length ∧
      c = max 1 ((buf.length + K.LOG_CHUNK_SIZE - 1) / K.LOG_CHUNK_SIZE) := by
  by_cases h0 : buf.length = 0
  · refine ⟨1, ?_, by omega, by omega, ?_⟩
    · rw [h0]
      have : Int.tdiv ((0 : Nat) - 1 : Int) (K.LOG_CHUNK_SIZE : Int) = 0 := by
        have e : ((0 : Nat) - 1 : Int) = -1 := by norm_num
        rw [e, Int.neg_tdiv]
        have : Int.tdiv 1 (K.LOG_CHUNK_SIZE : Int) = 0 := by
          rw [Int.tdiv_eq_ediv (by norm_num) (by omega)]
          exact Int.ediv_eq_zero_of_lt (by norm_num) (by omega)
        rw [this]; rfl
      rw [this]; rfl
    · rw [h0]
      have : (0 + K.LOG_CHUNK_SIZE - 1) / K.LOG_CHUNK_SIZE = 0 :=
        Nat.div_eq_of_lt (by omega)
      rw [this]; rfl
  · have hdm := Nat.div_add_mod (buf.length - 1) K.LOG_CHUNK_SIZE
    have hm := Nat.mod_lt (buf.length - 1) (show 0 < K.LOG_CHUNK_SIZE by omega)
    have hring : ((buf.length - 1) / K.LOG_CHUNK_SIZE + 1) * K.LOG_CHUNK_SIZE =
        K.LOG_CHUNK_SIZE * ((buf.length - 1) / K.LOG_CHUNK_SIZE) + K.LOG_CHUNK_SIZE := by ring
    refine ⟨(buf.length - 1) / K.LOG_CHUNK_SIZE + 1, ?_, by omega, ?_, ?_⟩
    · have e : ((buf.length : Int) - 1) = ((buf.length - 1 : Nat) : Int) := by omega
      rw [e]
      push_cast
      rfl
    · rw [Nat.add_sub_cancel, Nat.mul_comm]
      omega
    · have e : buf.length + K.LOG_CHUNK_SIZE - 1 = (buf.length - 1) + K.LOG_CHUNK_SIZE := by
        omega
      rw [e, Nat.add_div_right _ (by omega)]
      exact (Nat.max_eq_right (Nat.le_add_left 1 _)).symm

/-- C18: a successful `add_msg` (return value 0), for a chunk size above 1, leaves the chunks
that the message already has unchanged and appends after them
`max 1 (ceil (len / LOG_CHUNK_SIZE))` new chunks; every new chunk has at most `LOG_CHUNK_SIZE`
characters, every new chunk but the last has exactly `LOG_CHUNK_SIZE`, and the new chunks
concatenate to the text. -/
theorem add_msg_appends_chunks (K : log_consts) (hcs : 1 < K.LOG_CHUNK_SIZE) (msg : Nat)
    (buf : List Char) (st : log_state) (hm : msg < st.msgs.length)
    (hok : (add_msg K msg buf st).1 = 0) :
    ∃ new : List (List Char),
      (get_msg (add_msg K msg buf st).2 msg).chunks = (get_msg st msg).chunks ++ new ∧
      new.length = max 1 ((buf.length + K.LOG_CHUNK_SIZE - 1) / K.LOG_CHUNK_SIZE) ∧
      (∀ ch ∈ new, ch.length ≤ K.LOG_CHUNK_SIZE) ∧
      (∀ ch ∈ new.dropLast, ch.length = K.LOG_CHUNK_SIZE) ∧
      new.flatten = buf := by
  obtain ⟨c, hc, hcover, hlow, hmax⟩ := chunk_cnt_bounds K buf hcs
  have hnext := add_chunks_zero K msg buf _ _ _ 0 st hok
  have hres : add_msg K msg buf st = _ := add_chunks_next K msg buf _ _ _ 0 st hnext hm
  obtain ⟨l1, l2, l3⟩ := chunk_list_lengths K buf c hcover hlow c 0 (by omega)
  have hflat := chunk_list_flatten K buf c hcover c 0 (by omega)
  refine ⟨chunk_list K buf buf.length c c 0, ?_, ?_, ?_, ?_, ?_⟩
  · rw [hres, hc, Int.toNat_ofNat]
    simp only [get_msg, List.getD_eq_getElem?_getD, List.getElem?_set_self hm,
      Option.getD_some]
  · rw [← hmax]; exact l1
  · exact l2
  · exact l3
  · simpa using hflat

/-- Witness of C18: a text of nine characters with chunk size 4 on a message that already has
one chunk. -/
theorem add_msg_appends_chunks_witness :
    ∃ new : List (List Char),
      (get_msg (add_msg ⟨64, 4⟩ 0 "hello wo!".toList
        { log_init [] with
          msgs := [{ level := 3, timestamp := ⟨1, 0⟩, chunks := [['a', 'b']], refs := 1,
                     frees := 0 }],
          cur_msg := some 0 }).2 0).chunks =
        (get_msg { log_init [] with
          msgs := [{ level := 3, timestamp := ⟨1, 0⟩, chunks := [['a', 'b']], refs := 1,
                     frees := 0 }],
          cur_msg := some 0 } 0).chunks ++ new ∧
      new.length = max 1 (("hello wo!".toList.length + 4 - 1) / 4) ∧
      (∀ ch ∈ new, ch.length ≤ 4) ∧
      (∀ ch ∈ new.dropLast, ch.length = 4) ∧
      new.flatten = "hello wo!".toList :=
  add_msg_appends_chunks ⟨64, 4⟩ (by decide) 0 "hello wo!".toList
    { log_init [] with
      msgs := [{ level := 3, timestamp := ⟨1, 0⟩, chunks := [['a', 'b']], refs := 1,
                 frees := 0 }],
      cur_msg := some 0 } (by decide) (by decide)

/-! ## Fan-out with a failing clone allocation -/

theorem clone_msg_next (msg : Nat) (st : log_state) (ha : next_allocs_ok 2 st) :
    clone_msg msg st =
      (some { hdr_len := 0, lpd := msg, timestamp := (get_msg st msg).timestamp,
              level := (get_msg st msg).level },
        { st with
          msgs := st.msgs.set msg
            { get_msg st msg with refs := ((get_msg st msg).refs + 1) % 4294967296 },
          allocs := st.allocs.drop 2 }) := by
  have ha1 : next_allocs_ok 1 { st with allocs := st.allocs.tail } :=
    next_allocs_ok_drop 1 1 st _ ha (by simp)
  have htt : st.allocs.tail.tail = st.allocs.drop 2 := by
    cases st.allocs with
    | nil => rfl
    | cons a l => cases l <;> rfl
  unfold clone_msg
  simp only [mempool_alloc_next 1 st ha, mempool_alloc_next 0 _ ha1, Bool.true_eq_false,
    if_false, set_msg, get_msg, htt]

/-- A clone whose first or second allocation fails: `clone_msg` returns NULL; the message
bodies, the targets and the record of calls are as before. -/
theorem clone_msg_fail (msg : Nat) (st : log_state)
    (h : alloc_fails_at 0 st ∨ (next_allocs_ok 1 st ∧ alloc_fails_at 1 st)) :
    (clone_msg msg st).1 = none ∧ (clone_msg msg st).2.calls = st.calls ∧
    (clone_msg msg st).2.msgs = st.msgs ∧ (clone_msg msg st).2.targets = st.targets := by
  have hemerg : ∀ (t : List Char) (s : log_state),
      (log_emerg t s).calls = s.calls ∧ (log_emerg t s).msgs = s.msgs ∧
      (log_emerg t s).targets = s.targets := by
    intro t s
    unfold log_emerg
    cases s.emerg_file <;> exact ⟨rfl, rfl, rfl⟩
  rcases h with h0 | ⟨h0, h1⟩
  · unfold clone_msg
    simp only [mempool_alloc_fail st h0, if_true]
    exact ⟨trivial, (hemerg _ _).1, (hemerg _ _).2.1, (hemerg _ _).2.2⟩
  · have hf : alloc_fails_at 0 { st with allocs := st.allocs.tail } :=
      alloc_fails_at_drop 0 1 st _ h1 (by simp)
    unfold clone_msg
    simp only [mempool_alloc_next 0 st h0, mempool_alloc_fail _ hf, Bool.true_eq_false,
      if_false, if_true]
    exact ⟨trivial, (hemerg _ _).1, (hemerg _ _).2.1, (hemerg _ _).2.2⟩

/-- The loop over the targets when the clones of the first `p` targets are allocated and, if
there is a further target, an allocation of its clone fails: exactly the first `p` targets are
called, each once and in list order. -/
theorem fan_out_upto (msg : Nat) (ppp : Option ppp_t) (ts : List Nat) (p : Nat)
    (st : log_state) (hp : p ≤ ts.length) (ha : next_allocs_ok (2 * p) st)
    (hfail : p < ts.length →
      alloc_fails_at (2 * p) st ∨
        (st.allocs.getD (2 * p) true = true ∧ alloc_fails_at (2 * p + 1) st))
    (hm : msg < st.msgs.length) :
    (fan_out msg ppp ts st).calls = st.calls ++ (ts.take p).map (fun t =>
      { target := t,
        m := { hdr_len := 0, lpd := msg, timestamp := (get_msg st msg).timestamp,
               level := (get_msg st msg).level },
        chunks := (get_msg st msg).chunks, ppp := ppp }) ∧
    (fan_out msg ppp ts st).msgs.length = st.msgs.length ∧
    (fan_out msg ppp ts st).targets = st.targets := by
  induction ts generalizing st p with
  | nil => simp [fan_out]
  | cons t ts ih =>
    cases p with
    | zero =>
      have hf := hfail (by simp)
      have hf' : alloc_fails_at 0 st ∨ (next_allocs_ok 1 st ∧ alloc_fails_at 1 st) := by
        rcases hf with h | ⟨h1, h2⟩
        · exact Or.inl h
        · refine Or.inr ⟨?_, h2⟩
          intro i hi
          have : i = 0 := by omega
          subst this
          exact h1
      obtain ⟨c1, c2, c3, c4⟩ := clone_msg_fail msg st hf'
      have hfo : fan_out msg ppp (t :: ts) st = (clone_msg msg st).2 := by
        unfold fan_out
        cases hcl : clone_msg msg st with
        | mk r s1 =>
          rw [hcl] at c1
          simp only at c1
          subst c1
          rfl
      rw [hfo, c2, c3, c4]
      simp
    | succ p =>
      have ha2 : next_allocs_ok 2 st := fun i hi => ha i (by omega)
      have hcl := clone_msg_next msg st ha2
      obtain ⟨st1, hst1⟩ : ∃ st1 : log_state, st1 =
          { st with
            msgs := st.msgs.set msg
              { get_msg st msg with refs := ((get_msg st msg).refs + 1) % 4294967296 },
            allocs := st.allocs.drop 2,
            calls := st.calls ++
              [{ target := t,
                 m := { hdr_len := 0, lpd := msg, timestamp := (get_msg st msg).timestamp,
                        level := (get_msg st msg).level },
                 chunks := (get_msg st msg).chunks, ppp := ppp }] } := ⟨_, rfl⟩
      have hstep : fan_out msg ppp (t :: ts) st = fan_out msg ppp ts st1 := by
        rw [hst1]
        simp only [fan_out, hcl, get_msg, List.getD_eq_getElem?_getD,
          List.getElem?_set_self hm, Option.getD_some]
      have a1 : st1.allocs = st.allocs.drop 2 := by rw [hst1]
      have a3 : st1.calls = st.calls ++
          [{ target := t,
             m := { hdr_len := 0, lpd := msg, timestamp := (get_msg st msg).timestamp,
                    level := (get_msg st msg).level },
             chunks := (get_msg st msg).chunks, ppp := ppp }] := by rw [hst1]
      have a4 : st1.targets = st.targets := by rw [hst1]
      have a5 : st1.msgs.length = st.msgs.length := by rw [hst1]; simp
      have a6 : get_msg st1 msg =
          { get_msg st msg with refs := ((get_msg st msg).refs + 1) % 4294967296 } := by
        rw [hst1]
        exact get_set_msg _ msg _ hm
      have hp' : p ≤ ts.length := by simpa using hp
      have e2 : 2 * (p + 1) = 2 + 2 * p := by omega
      have e3 : 2 * (p + 1) + 1 = 2 + (2 * p + 1) := by omega
      have hnext : next_allocs_ok (2 * p) st1 :=
        next_allocs_ok_drop (2 * p) 2 st st1 (by rw [← e2]; exact ha) a1
      have hfail1 : p < ts.length →
          alloc_fails_at (2 * p) st1 ∨
            (st1.allocs.getD (2 * p) true = true ∧ alloc_fails_at (2 * p + 1) st1) := by
        intro hlt
        rcases hfail (by simpa using hlt) with h | ⟨h1, h2⟩
        · exact Or.inl (alloc_fails_at_drop (2 * p) 2 st st1 (by rw [← e2]; exact h) a1)
        · refine Or.inr ⟨?_, alloc_fails_at_drop (2 * p + 1) 2 st st1
            (by rw [← e3]; exact h2) a1⟩
          rw [a1, getD_drop, ← e2]
          exact h1
      obtain ⟨i1, i2, i3⟩ := ih p st1 hp' hnext hfail1 (by rw [a5]; exact hm)
      rw [hstep, i1, i2, i3, a3, a4, a5, a6]
      simp only [List.take_succ_cons, List.map_cons, List.append_assoc,
        List.singleton_append, and_self, and_true]

/-! ## A call of `do_log` that completes a message -/

/-- The part of `do_log` after the pending message is found (lines 85-104), when the text
`buf` that `vsnprintf` has stored ends in a newline: its chunks are appended, the first `p` targets are called, and the pending
slot is cleared. -/
theorem do_log_from_pending (K : log_consts) (hK : consts_ok K) (level : Int)
    (text buf : List Char) (ppp : Option ppp_t) (tv : timeval) (st st1 : log_state)
    (msg p : Nat) (hbuf : buf = text.take (K.LOG_MAX_SIZE - 1))
    (hpm : pending_msg level tv { st with stat_buf := text.take (K.LOG_MAX_SIZE - 1) } =
      (some msg, st1))
    (hnl : buf.getLast? = some '\n')
    (hsb : st1.stat_buf = buf) (hm : msg < st1.msgs.length) (hp : p ≤ st1.targets.length)
    (ha : next_allocs_ok
      ((Int.tdiv ((buf.length : Int) - 1) K.LOG_CHUNK_SIZE + 1).toNat + 2 * p) st1)
    (hfail : p < st1.targets.length →
      alloc_fails_at
          ((Int.tdiv ((buf.length : Int) - 1) K.LOG_CHUNK_SIZE + 1).toNat + 2 * p) st1 ∨
        (st1.allocs.getD
            ((Int.tdiv ((buf.length : Int) - 1) K.LOG_CHUNK_SIZE + 1).toNat + 2 * p) true =
            true ∧
          alloc_fails_at
            ((Int.tdiv ((buf.length : Int) - 1) K.LOG_CHUNK_SIZE + 1).toNat + (2 * p + 1))
            st1)) :
    ∃ stB, do_log K level text ppp tv st = some stB ∧ stB.cur_msg = none ∧
      stB.targets = st1.targets ∧ stB.msgs.length = st1.msgs.length ∧
      stB.calls = st1.calls ++ (st1.targets.take p).map (fun t =>
        { target := t,
          m := { hdr_len := 0, lpd := msg, timestamp := (get_msg st1 msg).timestamp,
                 level := (get_msg st1 msg).level },
          chunks := (get_msg st1 msg).chunks ++ text_chunks K buf, ppp := ppp }) := by
  have hne : buf ≠ [] := by
    intro h; rw [h] at hnl; exact absurd hnl (by simp)
  have hblen : buf.length ≤ K.LOG_MAX_SIZE - 1 := by
    rw [hbuf]; exact List.length_take_le _ _
  have hch := get_eol_index buf hne (by unfold consts_ok at hK; omega)
  obtain ⟨stb, hstb⟩ : ∃ stb : log_state, stb = after_add K msg buf st1 := ⟨_, rfl⟩
  have hadd : add_msg K msg st1.stat_buf st1 = (0, stb) := by
    rw [hsb, hstb]
    have := add_chunks_next K msg buf buf.length
      (Int.tdiv ((buf.length : Int) - 1) K.LOG_CHUNK_SIZE + 1)
      (Int.tdiv ((buf.length : Int) - 1) K.LOG_CHUNK_SIZE + 1).toNat 0 st1
      (fun i hi => ha i (by omega)) hm
    unfold add_msg after_add text_chunks
    rw [this]
    obtain ⟨ts, ms, cm, sb, al, cs, df, ef⟩ := st1
    simp only at hsb
    subst hsb
    rfl
  have b1 : stb.stat_buf = buf := by rw [hstb]; rfl
  have b2 : stb.allocs = st1.allocs.drop
      (Int.tdiv ((buf.length : Int) - 1) K.LOG_CHUNK_SIZE + 1).toNat := by rw [hstb]; rfl
  have b3 : stb.calls = st1.calls := by rw [hstb]; rfl
  have b4 : stb.targets = st1.targets := by rw [hstb]; rfl
  have b5 : stb.msgs.length = st1.msgs.length := by rw [hstb]; simp [after_add]
  have b6 : get_msg stb msg =
      { get_msg st1 msg with chunks := (get_msg st1 msg).chunks ++ text_chunks K buf } := by
    rw [hstb]
    simp [after_add, get_msg, List.getD_eq_getElem?_getD, List.getElem?_set_self hm]
  obtain ⟨st2, hst2⟩ : ∃ st2 : log_state,
      st2 = if stb.debug_file.isSome then write_msg msg ppp stb else stb := ⟨_, rfl⟩
  have c2 : st2.allocs = stb.allocs := by rw [hst2]; split <;> rfl
  have c3 : st2.calls = stb.calls := by rw [hst2]; split <;> rfl
  have c4 : st2.targets = stb.targets := by rw [hst2]; split <;> rfl
  have c5 : st2.msgs = stb.msgs := by rw [hst2]; split <;> rfl
  have c6 : get_msg st2 msg = get_msg stb msg := by unfold get_msg; rw [c5]
  have hdo : do_log K level text ppp tv st =
      some { _log_free_msg msg (fan_out msg ppp st2.targets st2) with cur_msg := none } := by
    unfold do_log
    simp only [hpm, hadd, ne_eq, not_true_eq_false, if_false, b1, hch, hnl, if_true, ← hst2]
  have hfo := fan_out_upto msg ppp st2.targets p st2 (by rw [c4, b4]; exact hp)
    (next_allocs_ok_drop (2 * p) _ st1 st2 ha (by rw [c2, b2]))
    (by
      intro hlt
      rw [c4, b4] at hlt
      rcases hfail hlt with h | ⟨h1, h2⟩
      · exact Or.inl (alloc_fails_at_drop (2 * p) _ st1 st2 h (by rw [c2, b2]))
      · refine Or.inr ⟨?_, alloc_fails_at_drop (2 * p + 1) _ st1 st2 h2 (by rw [c2, b2])⟩
        rw [c2, b2, getD_drop]
        exact h1)
    (by rw [c5, b5]; exact hm)
  obtain ⟨f1, f2, f3⟩ := hfo
  refine ⟨_, hdo, rfl, ?_, ?_, ?_⟩
  · rw [(log_free_msg_frame msg _).2.1, f3, c4, b4]
  · rw [(log_free_msg_frame msg _).2.2, f2, c5, b5]
  · rw [(log_free_msg_frame msg _).1, f1, c3, b3, c4, b4, c6, b6]

theorem pending_msg_none_next (level : Int) (tv : timeval) (st : log_state)
    (hcur : st.cur_msg = none) (ha : next_allocs_ok 1 st) :
    pending_msg level tv st =
      (some st.msgs.length,
        { st with
          allocs := st.allocs.tail,
          msgs := st.msgs ++
            [{ level := level, timestamp := tv, chunks := [], refs := 1, frees := 0 }],
          cur_msg := some st.msgs.length }) := by
  unfold pending_msg
  rw [hcur]
  simp only [mempool_alloc_next 0 st ha, Bool.true_eq_false, if_false]

/-- A call of `do_log` whose stored text ends in a newline, on a well-formed pending slot, when
the allocations up to the clones of the first `p` targets succeed and, if there is a further
target, an allocation of its clone fails: the message is completed, exactly the first `p`
targets are called, in registration order, each with a clone of the message, and the pending
slot is cleared. -/
theorem do_log_newline (K : log_consts) (hK : consts_ok K) (level : Int) (text : List Char)
    (ppp : Option ppp_t) (tv : timeval) (st : log_state) (p : Nat)
    (hpend : pending_ok st) (hnl : (stored_text K text).getLast? = some '\n')
    (hp : p ≤ st.targets.length)
    (ha : next_allocs_ok (allocs_before_clones K text st + 2 * p) st)
    (hfail : p < st.targets.length →
      alloc_fails_at (allocs_before_clones K text st + 2 * p) st ∨
        (st.allocs.getD (allocs_before_clones K text st + 2 * p) true = true ∧
          alloc_fails_at (allocs_before_clones K text st + (2 * p + 1)) st)) :
    ∃ stB, do_log K level text ppp tv st = some stB ∧ stB.cur_msg = none ∧
      stB.targets = st.targets ∧
      stB.calls = st.calls ++ (st.targets.take p).map (fun t =>
        { target := t,
          m := { hdr_len := 0, lpd := pending_ptr st,
                 timestamp := (pending_body level tv st).timestamp,
                 level := (pending_body level tv st).level },
          chunks := (pending_body level tv st).chunks ++ text_chunks K (stored_text K text),
          ppp := ppp }) := by
  cases hcur : st.cur_msg with
  | none =>
    have hab : allocs_before_clones K text st =
        1 + (Int.tdiv (((stored_text K text).length : Int) - 1) K.LOG_CHUNK_SIZE + 1).toNat := by
      unfold allocs_before_clones
      rw [if_pos hcur]
    rw [hab] at ha hfail
    obtain ⟨st1, hst1⟩ : ∃ st1 : log_state, st1 =
        { st with
          stat_buf := stored_text K text,
          allocs := st.allocs.tail,
          msgs := st.msgs ++
            [{ level := level, timestamp := tv, chunks := [], refs := 1, frees := 0 }],
          cur_msg := some st.msgs.length } := ⟨_, rfl⟩
    have hpm : pending_msg level tv { st with stat_buf := text.take (K.LOG_MAX_SIZE - 1) } =
        (some st.msgs.length, st1) := by
      have hn1 : next_allocs_ok 1 { st with stat_buf := text.take (K.LOG_MAX_SIZE - 1) } :=
        fun i hi => ha i (by omega)
      rw [pending_msg_none_next level tv
        { st with stat_buf := text.take (K.LOG_MAX_SIZE - 1) } hcur hn1, hst1]
      rfl
    have a1 : st1.allocs = st.allocs.drop 1 := by rw [hst1]; simp
    have a2 : st1.targets = st.targets := by rw [hst1]
    have a3 : st1.calls = st.calls := by rw [hst1]
    have a4 : get_msg st1 st.msgs.length =
        { level := level, timestamp := tv, chunks := [], refs := 1, frees := 0 } := by
      rw [hst1]
      simp [get_msg, List.getD_eq_getElem?_getD]
    obtain ⟨stB, h1, h2, h3, _, h5⟩ := do_log_from_pending K hK level text (stored_text K text)
      ppp tv st st1 st.msgs.length p rfl hpm hnl (by rw [hst1]) (by rw [hst1]; simp)
      (by rw [a2]; exact hp)
      (next_allocs_ok_drop _ 1 st st1 (by rw [← Nat.add_assoc]; exact ha) a1)
      (by
        intro hlt
        rw [a2] at hlt
        rcases hfail hlt with h | ⟨g1, g2⟩
        · exact Or.inl (alloc_fails_at_drop _ 1 st st1 (by rw [← Nat.add_assoc]; exact h) a1)
        · refine Or.inr ⟨?_, alloc_fails_at_drop _ 1 st st1
            (by rw [← Nat.add_assoc]; exact g2) a1⟩
          rw [a1, getD_drop, ← Nat.add_assoc]
          exact g1)
    refine ⟨stB, h1, h2, by rw [h3, a2], ?_⟩
    rw [h5, a3, a2, a4]
    simp [pending_ptr, pending_body, hcur]
  | some msg =>
    have hab : allocs_before_clones K text st =
        (Int.tdiv (((stored_text K text).length : Int) - 1) K.LOG_CHUNK_SIZE + 1).toNat := by
      unfold allocs_before_clones
      rw [if_neg (by rw [hcur]; simp), Nat.zero_add]
    rw [hab] at ha hfail
    have hpm : pending_msg level tv { st with stat_buf := text.take (K.LOG_MAX_SIZE - 1) } =
        (some msg, { st with stat_buf := text.take (K.LOG_MAX_SIZE - 1) }) :=
      pending_msg_some level tv _ msg hcur
    obtain ⟨stB, h1, h2, h3, _, h5⟩ := do_log_from_pending K hK level text (stored_text K text)
      ppp tv st { st with stat_buf := text.take (K.LOG_MAX_SIZE - 1) } msg p rfl hpm hnl rfl
      (hpend msg hcur).1 hp ha hfail
    refine ⟨stB, h1, h2, h3, ?_⟩
    rw [h5]
    simp [pending_ptr, pending_body, hcur, get_msg]

/-! ## C11 and C12 -/

theorem register_targets (regs : List Nat) (st : log_state) :
    (regs.foldl (fun s t => log_register_target t s) st).targets = st.targets ++ regs := by
  induction regs generalizing st with
  | nil => simp
  | cons t ts ih =>
    rw [List.foldl_cons, ih]
    simp [log_register_target]

end Log
